import Mathlib

/-!
Shallow embedding of the chrome-trace to OTF2 converter
(src/chrome2otf2.py, class ChromeTrace2OTF2) and proofs about it.

Modelling conventions:
* JSON numbers are exact rationals; Python `int()` truncation toward zero
  is `pyTrunc`; `//` on integers is `Int.fdiv` (Python floor division).
* A decoded trace record is a structure of optional fields (a missing JSON
  key is `none`); reading a missing key is a `keyError`, mirroring Python's
  KeyError.  The failing assertion at chrome2otf2.py:251 is the
  `duplicateThreadDeclaration` error.
* The OTF2 writer (the trace sink) is modelled by an output list of
  `SinkCall`s; each call to one of its definition constructors appends one
  creation call and returns a fresh natural-number handle.
* Python dicts used as registries are association lists; assignment is
  modelled by consing (which shadows older entries for lookup, exactly the
  observable behaviour, since the registries are only ever looked up).
* `print` diagnostics are collected in a `diags` list.
-/

namespace Chrome2OTF2

/-- Python `int()` on an exact rational: truncation toward zero. -/
def pyTrunc (q : ℚ) : ℤ := if 0 ≤ q then ⌊q⌋ else -⌊-q⌋

/-- Association-list lookup, modelling Python `d[k]` / `k in d`. -/
def alookup {κ α : Type} [DecidableEq κ] : List (κ × α) → κ → Option α
  | [], _ => none
  | (k, v) :: l, k' => if k' = k then some v else alookup l k'

/-- Association-list store, modelling Python `d[k] = v` (replace in place,
    else append; preserves dict insertion order). -/
def aset {κ α : Type} [DecidableEq κ] : List (κ × α) → κ → α → List (κ × α)
  | [], k, v => [(k, v)]
  | (k', v') :: l, k, v => if k = k' then (k, v) :: l else (k', v') :: aset l k v

/-- One decoded JSON record of the event-trace document.  Only the keys the
converter reads are modelled; a missing key is `none`.  `argsName` stands for
`event["args"]["name"]`, `argsAllocatorBytesInUse` for
`event["args"]["Allocator Bytes in Use"]`, and `flowId` for `event["id"]`. -/
structure TraceEvent where
  ph : Option String := none
  pid : Option ℤ := none
  tid : Option ℤ := none
  name : Option String := none
  ts : Option ℚ := none
  dur : Option ℚ := none
  argsName : Option String := none
  argsAllocatorBytesInUse : Option ℤ := none
  flowId : Option ℤ := none
deriving Repr, DecidableEq

/-- Python `not event` on a record dict: true when no key is present. -/
def TraceEvent.isEmpty (e : TraceEvent) : Bool :=
  e.ph.isNone && e.pid.isNone && e.tid.isNone && e.name.isNone && e.ts.isNone
    && e.dur.isNone && e.argsName.isNone && e.argsAllocatorBytesInUse.isNone
    && e.flowId.isNone

/-- OTF2 attribute types used by the converter. -/
inductive AttrType
  | string
  | uint64
  | int64
  | double
deriving Repr, DecidableEq

/-- A scalar JSON value inside a memory-profile snapshot block. -/
inductive AttrVal
  | s (v : String)
  | n (v : ℤ)
  | r (v : ℚ)
deriving Repr, DecidableEq

/-- Calls issued to the OTF2 writer (the trace sink), in order.  Definition
constructors record the fresh handle they returned. -/
inductive SinkCall
  | systemTreeNode (h : ℕ) (name : String) (parent : Option ℕ)
  | locationGroup (h : ℕ) (name : String) (parent : ℕ)
  | eventWriter (h : ℕ) (name : String) (group : ℕ)
  | regionDef (h : ℕ) (name : String)
  | metricDef (h : ℕ) (name : String) (unit : String)
  | attributeDef (h : ℕ) (name : String) (ty : AttrType)
  | enter (loc : ℕ) (time : ℤ) (region : ℕ) (attrs : List (ℕ × AttrVal))
  | leave (loc : ℕ) (time : ℤ) (region : ℕ)
  | metricSample (loc : ℕ) (time : ℤ) (metric : ℕ) (value : ℤ)
deriving Repr, DecidableEq

/-- Diagnostic `print` lines of the converter. -/
inductive Diag
  | unknownEvent (e : TraceEvent)
  | unknownMetadata (e : TraceEvent)
  | unknownTimestamped (e : TraceEvent)
  | corruptedDataflow (e : TraceEvent)
deriving Repr, DecidableEq

/-- Exceptions the conversion can raise. -/
inductive ConvError
  | keyError (k : String)
  | duplicateThreadDeclaration
  | valueError (v : String)
deriving Repr, DecidableEq

/-- Python `int(value)` on a scalar: ints pass through, decimal strings are
parsed (ValueError otherwise), floats truncate toward zero. -/
def pyIntOfVal : AttrVal → Except ConvError ℤ
  | .n i => .ok i
  | .s str =>
    match str.toInt? with
    | some i => .ok i
    | none => .error (.valueError str)
  | .r q => .ok (pyTrunc q)

/-- The Process dataclass: display name, location-group handle, and the
tid-to-location map. -/
structure Process where
  name : String
  group : ℕ
  threads : List (ℤ × ℕ) := []
deriving Repr, DecidableEq

/-- The converter's mutable state plus the sink-call and diagnostic logs. -/
structure ConvState where
  nextHandle : ℕ := 0
  systemTreeHost : ℕ := 0
  processMap : List (ℤ × Process) := []
  functionMap : List (String × ℕ) := []
  metricMap : List (String × ℕ) := []
  dataflowStart : Option ℤ := none
  calls : List SinkCall := []
  diags : List Diag := []
deriving Repr, DecidableEq

/-- Append one sink call to the log. -/
def emit (st : ConvState) (c : SinkCall) : ConvState :=
  { st with calls := st.calls ++ [c] }

/-- Draw a fresh sink-side handle. -/
def fresh (st : ConvState) : ℕ × ConvState :=
  (st.nextHandle, { st with nextHandle := st.nextHandle + 1 })

/-- Read an optional value, raising KeyError `k` when absent
(Python `event[k]`). -/
def getKey {α : Type} (o : Option α) (k : String) : Except ConvError α :=
  match o with
  | some v => .ok v
  | none => .error (.keyError k)

/-- chrome2otf2.py:206-209, `_convert_time_to_ticks`: microseconds to
integer nanoseconds via Python `int(timestamp * 1e3)`. -/
def convert_time_to_ticks (timestamp : ℚ) : ℤ := pyTrunc (timestamp * 1000)

/-- chrome2otf2.py:197: picosecond memory timestamps to nanoseconds via
Python floor division, `int(snapshot['timeOffsetPs']) // 1000`. -/
def memory_timestamp (ps : ℤ) : ℤ := Int.fdiv ps 1000

/-- chrome2otf2.py:278-295, `_otf2_add_process`: always creates a fresh
location group, then inserts or updates the Process entry. -/
def otf2_add_process (pid : ℤ) (name : String) (st : ConvState) : ConvState :=
  let processName := if name = "" then toString pid else name
  let (g, st) := fresh st
  let st := emit st (.locationGroup g processName st.systemTreeHost)
  match alookup st.processMap pid with
  | some p =>
    { st with processMap := (pid, { p with group := g, name := processName }) :: st.processMap }
  | none =>
    { st with processMap := (pid, { name := processName, group := g, threads := [] }) :: st.processMap }

/-- chrome2otf2.py:297-302, `_otf2_add_thread`: creates an event writer for
`(pid, tid)`; raises KeyError when `pid` is not registered. -/
def otf2_add_thread (tid pid : ℤ) (name : Option String) (st : ConvState) :
    Except ConvError ConvState :=
  match alookup st.processMap pid with
  | none => .error (.keyError "pid")
  | some p =>
    let writerName :=
      match name with
      | some n => if n = "" then p.name ++ " " ++ toString tid else n
      | none => p.name ++ " " ++ toString tid
    let (h, st) := fresh st
    let st := emit st (.eventWriter h writerName p.group)
    .ok { st with
          processMap := (pid, { p with threads := (tid, h) :: p.threads }) :: st.processMap }

/-- chrome2otf2.py:304-306, `_otf2_add_function`. -/
def otf2_add_function (name : String) (st : ConvState) : ConvState :=
  let (h, st) := fresh st
  let st := emit st (.regionDef h name)
  { st with functionMap := (name, h) :: st.functionMap }

/-- chrome2otf2.py:227-229, `otf2_add_metric`. -/
def otf2_add_metric (name unit : String) (st : ConvState) : ConvState :=
  let (h, st) := fresh st
  let st := emit st (.metricDef h name unit)
  { st with metricMap := (name, h) :: st.metricMap }

/-- chrome2otf2.py:217-218: create the metric on first sight
(`if event['name'] not in self._metric_map`). -/
def ensure_metric (name unit : String) (st : ConvState) : ConvState :=
  if (alookup st.metricMap name).isNone then otf2_add_metric name unit st else st

/-- chrome2otf2.py:220-221 and 263-264: create the thread lazily when `tid`
is not registered for the (already looked-up) process of `pid`. -/
def ensure_thread (tid pid : ℤ) (p : Process) (st : ConvState) :
    Except ConvError ConvState :=
  if (alookup p.threads tid).isNone then otf2_add_thread tid pid none st else pure st

/-- chrome2otf2.py:267-268: create the region on first sight. -/
def ensure_function (name : String) (st : ConvState) : ConvState :=
  if (alookup st.functionMap name).isNone then otf2_add_function name st else st

/-- chrome2otf2.py:244-250: inside the thread_name handler, create the
Process when `pid` is unseen (reading `event['args']['name']`). -/
def ensure_process (event : TraceEvent) (pid : ℤ) (st : ConvState) :
    Except ConvError ConvState :=
  if (alookup st.processMap pid).isNone then do
    let an ← getKey event.argsName "name"
    pure (otf2_add_process pid (an ++ " " ++ toString pid) st)
  else pure st

/-- chrome2otf2.py:212-225, `_handle_metric`: only the counter named
"Allocated Bytes" is recognized; the thread is lazily created when `tid` is
unseen, but an unseen `pid` raises KeyError (line 220). -/
def handle_metric (event : TraceEvent) (st : ConvState) : Except ConvError ConvState := do
  let metricName ← getKey event.name "name"
  let pid ← getKey event.pid "pid"
  let tid ← getKey event.tid "tid"
  if metricName = "Allocated Bytes" then do
    let st := ensure_metric metricName "Bytes" st
    let p ← getKey (alookup st.processMap pid) "pid"
    let st ← ensure_thread tid pid p st
    let value ← getKey event.argsAllocatorBytesInUse "Allocator Bytes in Use"
    let p2 ← getKey (alookup st.processMap pid) "pid"
    let loc ← getKey (alookup p2.threads tid) "tid"
    let m ← getKey (alookup st.metricMap metricName) "metric"
    let ts ← getKey event.ts "ts"
    .ok (emit st (.metricSample loc (convert_time_to_ticks ts) m value))
  else
    .ok st

/-- chrome2otf2.py:231-258, `_handle_metadata`: process naming, thread naming
(with the duplicate-thread assertion of line 251), unknown metadata report. -/
def handle_metadata (event : TraceEvent) (st : ConvState) : Except ConvError ConvState := do
  if event.name = some "process_name" then do
    let an ← getKey event.argsName "name"
    let pid ← getKey event.pid "pid"
    .ok (otf2_add_process pid (an ++ " " ++ toString pid) st)
  else if event.name = some "thread_name" then do
    let pid ← getKey event.pid "pid"
    let tid ← getKey event.tid "tid"
    if pid = 0 ∧ tid = 0 then
      .ok st
    else do
      let st ← ensure_process event pid st
      let p ← getKey (alookup st.processMap pid) "pid"
      if (alookup p.threads tid).isSome then
        .error .duplicateThreadDeclaration
      else do
        let an ← getKey event.argsName "name"
        otf2_add_thread tid pid (some (an ++ " " ++ toString tid)) st
  else
    .ok { st with diags := st.diags ++ [.unknownMetadata event] }

/-- chrome2otf2.py:309-322, `_handle_dataflow` (a TODO stub in the source:
only bookkeeping of the pending flow start; `f` events are ignored). -/
def handle_dataflow (event : TraceEvent) (st : ConvState) : Except ConvError ConvState := do
  if event.ph = some "s" then do
    let st := if st.dataflowStart.isSome
              then { st with diags := st.diags ++ [.corruptedDataflow event], dataflowStart := none }
              else st
    let i ← getKey event.flowId "id"
    .ok { st with dataflowStart := some i }
  else if event.ph = some "t" then do
    let i ← getKey event.flowId "id"
    let st := if st.dataflowStart ≠ some i
              then { st with diags := st.diags ++ [.corruptedDataflow event] }
              else st
    .ok { st with dataflowStart := none }
  else
    .ok st

/-- chrome2otf2.py:260-276, `_handle_event`: lazy thread creation (but an
unseen `pid` raises KeyError at line 263), lazy region creation, then a leave
at `ts + dur` when the record still carries `dur`, else an enter at `ts`. -/
def handle_event (event : TraceEvent) (st : ConvState) : Except ConvError ConvState := do
  let pid ← getKey event.pid "pid"
  let tid ← getKey event.tid "tid"
  let p ← getKey (alookup st.processMap pid) "pid"
  let st ← ensure_thread tid pid p st
  let name ← getKey event.name "name"
  let st := ensure_function name st
  let p2 ← getKey (alookup st.processMap pid) "pid"
  let loc ← getKey (alookup p2.threads tid) "tid"
  let f ← getKey (alookup st.functionMap name) "name"
  match event.dur with
  | some d => do
    let ts ← getKey event.ts "ts"
    .ok (emit st (.leave loc (convert_time_to_ticks (ts + d)) f))
  | none => do
    let ts ← getKey event.ts "ts"
    .ok (emit st (.enter loc (convert_time_to_ticks ts) f []))

/-- chrome2otf2.py:107-129, the first pass of `_convert_event_trace`: the
event classifier.  An empty record is silently skipped; otherwise `ph` is
read (KeyError if absent) and dispatched; complete events are deferred to the
second pass; anything else is reported as unknown and skipped. -/
def classify_event (st : ConvState) (event : TraceEvent) : Except ConvError ConvState := do
  if event.isEmpty then
    .ok st
  else do
    let ph ← getKey event.ph "ph"
    if ph = "M" then handle_metadata event st
    else if ph = "s" ∨ ph = "t" ∨ ph = "f" then handle_dataflow event st
    else if ph = "C" then handle_metric event st
    else if ph = "X" ∧ event.ts.isSome ∧ event.dur.isSome then .ok st
    else .ok { st with diags := st.diags ++ [.unknownEvent event] }

/-- chrome2otf2.py:134, the filter of the splitting pass: membership tests
for `ts`, `dur`, `ph` and the check `ph == 'X'`. -/
def isCompleteEvent (e : TraceEvent) : Bool :=
  e.ts.isSome && e.dur.isSome && e.ph == some "X"

/-- chrome2otf2.py:135-137: the enter sub-event is a deep copy of the record
with the `dur` key deleted. -/
def eraseDur (e : TraceEvent) : TraceEvent := { e with dur := none }

/-- chrome2otf2.py:132-139: split every complete event into the enter
sub-event followed by the original record (its leave sub-event). -/
def split_events (events : List TraceEvent) : List TraceEvent :=
  events.foldl (fun acc e => if isCompleteEvent e then acc ++ [eraseDur e, e] else acc) []

/-- chrome2otf2.py:141, the sort key: `e['ts'] + (e['dur'] if 'dur' in e
else 0)` (every split sub-event carries `ts`). -/
def sortKey (e : TraceEvent) : ℚ := e.ts.getD 0 + e.dur.getD 0

/-- The comparison used for the stable sort of the sub-events. -/
def sortRel (a b : TraceEvent) : Prop := sortKey a ≤ sortKey b

instance : DecidableRel sortRel :=
  fun a b => inferInstanceAs (Decidable (sortKey a ≤ sortKey b))

instance : IsTotal TraceEvent sortRel := ⟨fun a b => le_total (sortKey a) (sortKey b)⟩

instance : IsTrans TraceEvent sortRel := ⟨fun _ _ _ => le_trans⟩

/-- chrome2otf2.py:142-147, the second pass: every sorted sub-event with
`ph == 'X'` goes to `_handle_event`; anything else would be reported. -/
def handle_sorted_event (st : ConvState) (event : TraceEvent) : Except ConvError ConvState :=
  if event.ph = some "X" then handle_event event st
  else .ok { st with diags := st.diags ++ [.unknownTimestamped event] }

/-- chrome2otf2.py:106-147, `_convert_event_trace`: classifier pass, then the
split/stable-sort/emit pass.  Python's `sorted` is a stable sort keyed by
`sortKey`; every stable sort computes the same output list, so it is
modelled by the stable insertion sort. -/
def convert_event_trace (events : List TraceEvent) (st : ConvState) :
    Except ConvError ConvState := do
  let st ← events.foldlM classify_event st
  (List.insertionSort sortRel (split_events events)).foldlM handle_sorted_event st

/-- chrome2otf2.py:89-91: the state right after opening the writer and
creating the two system-tree nodes ("root node" and "myHost"). -/
def initState : ConvState :=
  let (root, st) := fresh {}
  let st := emit st (.systemTreeNode root "root node" none)
  let (host, st) := fresh st
  let st := emit st (.systemTreeNode host "myHost" (some root))
  { st with systemTreeHost := host }

/-- One decoded snapshot of the memory-profile document:
`activityMetadata` and `aggregationStats` are flat JSON objects;
`timeOffsetPs` is the already-parsed integer value of the JSON string
`snapshot["timeOffsetPs"]` (picoseconds). -/
structure MemorySnapshot where
  activityMetadata : List (String × AttrVal)
  aggregationStats : List (String × AttrVal)
  timeOffsetPs : ℤ
deriving Repr, DecidableEq

/-- chrome2otf2.py:156-165: keys whose values are strings in the JSON even
though they are integers. -/
def uint_metadata : List String :=
  ["stackReservedBytes", "heapAllocatedBytes", "freeMemoryBytes", "peakBytesInUse",
   "requestedBytes", "allocationBytes", "address", "stepId"]

/-- Python dict semantics of `d = copy.deepcopy(a); d.update(b)` at the level
of key/value lists: keys of `a` keep their position (values overridden by
`b`), new keys of `b` are appended in order. -/
def dict_update (a b : List (String × AttrVal)) : List (String × AttrVal) :=
  a.map (fun kv => (kv.1, (alookup b kv.1).getD kv.2))
    ++ b.filter (fun kv => (alookup a kv.1).isNone)

/-- The loop state of `_convert_memory_profile`: the shared activity-region
and attribute registries, the deferred leave, and the loop variables
`location` and `timestamp` that survive iterations (Python scoping). -/
structure MemLoopState where
  st : ConvState
  memoryActivities : List (String × ℕ) := []
  otf2Attributes : List (String × ℕ) := []
  lastLeave : Option ℕ := none
  curLocation : Option ℕ := none
  curTimestamp : Option ℤ := none
deriving Repr, DecidableEq

/-- chrome2otf2.py:182-195: one key/value pair of the merged attribute dict.
On first sight of a key, infer its type and create the sink attribute; keys
on the allow-list have their value coerced with `int(...)` only in that
creation branch.  The source line 188 comparison `key is isinstance(value,
int)` compares a string to a bool with `is` and is always False, so every
key off the allow-list gets the STRING type. -/
def add_attribute (acc : ConvState × List (String × ℕ) × List (ℕ × AttrVal))
    (kv : String × AttrVal) :
    Except ConvError (ConvState × List (String × ℕ) × List (ℕ × AttrVal)) :=
  match alookup acc.2.1 kv.1 with
  | some h => .ok (acc.1, acc.2.1, aset acc.2.2 h kv.2)
  | none =>
    if kv.1 ∈ uint_metadata then do
      let v ← pyIntOfVal kv.2
      let (h, st) := fresh acc.1
      let st := emit st (.attributeDef h kv.1 .uint64)
      .ok (st, (kv.1, h) :: acc.2.1, aset acc.2.2 h (.n v))
    else
      let (h, st) := fresh acc.1
      let st := emit st (.attributeDef h kv.1 .string)
      .ok (st, (kv.1, h) :: acc.2.1, aset acc.2.2 h kv.2)

/-- The value of activityMetadata["memoryActivity"] must be a string: it is
used as a dict key and as the region name. -/
def attrString (v : AttrVal) : Except ConvError String :=
  match v with
  | .s str => .ok str
  | _ => .error (.valueError "memoryActivity")

/-- chrome2otf2.py:174-175: create the activity region on first sight
(`if activity not in memory_activities`). -/
def ensure_memory_activity (activity : String) (ms : MemLoopState) : MemLoopState :=
  match alookup ms.memoryActivities activity with
  | some _ => ms
  | none =>
    let (h, st) := fresh ms.st
    let st := emit st (.regionDef h activity)
    { ms with st := st, memoryActivities := (activity, h) :: ms.memoryActivities }

/-- chrome2otf2.py:172-201, the body of the snapshot loop for the allocator
whose location is `loc`: ensure the activity region, build the merged
attribute set, convert the timestamp with integer floor division by 1000,
emit the deferred leave (if any) and the enter, and defer this snapshot's
leave. -/
def process_snapshot (loc : ℕ) (ms : MemLoopState) (snapshot : MemorySnapshot) :
    Except ConvError MemLoopState := do
  let av ← getKey (alookup snapshot.activityMetadata "memoryActivity") "memoryActivity"
  let activity ← attrString av
  let ms := ensure_memory_activity activity ms
  let event_attributes := dict_update snapshot.activityMetadata snapshot.aggregationStats
  let res ← event_attributes.foldlM add_attribute (ms.st, ms.otf2Attributes, [])
  let ms := { ms with st := res.1, otf2Attributes := res.2.1 }
  let outAttrs := res.2.2
  let timestamp := memory_timestamp snapshot.timeOffsetPs
  let regionHandle ← getKey (alookup ms.memoryActivities activity) "memoryActivity"
  let st := match ms.lastLeave with
    | some reg => emit ms.st (.leave loc timestamp reg)
    | none => ms.st
  let st := emit st (.enter loc timestamp regionHandle outAttrs)
  .ok { ms with st := st, lastLeave := some regionHandle, curTimestamp := some timestamp }

/-- chrome2otf2.py:149-204, `_convert_memory_profile`: one location group,
one event writer per allocator, the snapshot loop, and the single trailing
leave after the whole allocator loop.  The deferred-leave variable
`last_leave` (and the loop variables `location`/`timestamp`) are NOT reset
between allocators, exactly as in the source. -/
def convert_memory_profile (memoryData : List (String × List MemorySnapshot))
    (st : ConvState) : Except ConvError ConvState := do
  let (g, st) := fresh st
  let st := emit st (.locationGroup g "TF Memory Allocators" st.systemTreeHost)
  let ms : MemLoopState := { st := st }
  let ms ← memoryData.foldlM
    (fun ms alloc => do
      let (loc, st) := fresh ms.st
      let st := emit st (.eventWriter loc alloc.1 g)
      let ms := { ms with st := st, curLocation := some loc }
      alloc.2.foldlM (fun ms snapshot => process_snapshot loc ms snapshot) ms)
    ms
  match ms.lastLeave, ms.curLocation, ms.curTimestamp with
  | some reg, some loc, some t => .ok (emit ms.st (.leave loc t reg))
  | some _, _, _ => .error (.keyError "location")
  | none, _, _ => .ok ms.st

/-!
### Heap model of the two copy-then-mutate sites

The converter mutates a dict in exactly two places: it deletes the `dur` key
of the deep-copied enter sub-event (chrome2otf2.py:135-137) and it updates
the deep-copied `activityMetadata` with `aggregationStats`
(chrome2otf2.py:177-178).  To settle whether the decoded input documents
survive unchanged, those two sites are re-modelled over an explicit heap of
dict objects, where fresh copies get fresh addresses.  Nested JSON objects
are plain values here because the converter never mutates below the top
level of the copied dict, so a deep copy and a top-level copy coincide.
-/

/-- A heap address of a decoded JSON object. -/
abbrev Addr := ℕ

/-- A JSON scalar or nested object stored in a dict slot. -/
inductive HVal
  | hs (v : String)
  | hn (v : ℤ)
  | hq (v : ℚ)
  | hd (d : List (String × HVal))

/-- A top-level decoded JSON object. -/
abbrev HDict := List (String × HVal)

/-- The heap of decoded JSON objects. -/
structure Heap where
  objs : List (Addr × HDict) := []
  next : Addr := 0

/-- Dereference an address. -/
def Heap.read (h : Heap) (a : Addr) : Option HDict := alookup h.objs a

/-- Allocate a fresh object (used for `copy.deepcopy`). -/
def Heap.alloc (h : Heap) (d : HDict) : Addr × Heap :=
  (h.next, ⟨(h.next, d) :: h.objs, h.next + 1⟩)

/-- Overwrite the object at an existing address (a dict mutation). -/
def Heap.write (h : Heap) (a : Addr) (d : HDict) : Heap :=
  ⟨(a, d) :: h.objs, h.next⟩

/-- Heap well-formedness: every allocated address is below the allocation
counter. -/
def Heap.wf (h : Heap) : Prop := ∀ p ∈ h.objs, p.1 < h.next

/-- Python `del d[k]`. -/
def hDictDel (d : HDict) (k : String) : HDict := d.filter (fun kv => kv.1 ≠ k)

/-- Python `a.update(b)` result at the level of key/value lists. -/
def hDictUpdate (a b : HDict) : HDict :=
  a.map (fun kv => (kv.1, (alookup b kv.1).getD kv.2))
    ++ b.filter (fun kv => (alookup a kv.1).isNone)

/-- The filter of chrome2otf2.py:134 read from a heap dict. -/
def hIsComplete (d : HDict) : Bool :=
  (alookup d "ts").isSome && (alookup d "dur").isSome
    && (match alookup d "ph" with
        | some (.hs v) => v == "X"
        | _ => false)

/-- One iteration of the splitting loop over the record heap. -/
def split_heap_step (acc : Heap × List Addr) (a : Addr) : Heap × List Addr :=
  match acc.1.read a with
  | some d =>
    if hIsComplete d then
      let (a2, h2) := acc.1.alloc d
      let h3 := h2.write a2 (hDictDel d "dur")
      (h3, acc.2 ++ [a2, a])
    else acc
  | none => acc

/-- chrome2otf2.py:132-139 over the record heap: for every complete record,
deep-copy it, delete the copy's `dur` key in place, and collect the copy
followed by the original. -/
def split_events_heap (h : Heap) (records : List Addr) : Heap × List Addr :=
  records.foldl split_heap_step (h, [])

/-- chrome2otf2.py:177-178 over the heap: deep-copy the `activityMetadata`
object, then update the copy in place with the `aggregationStats` object. -/
def merge_attrs_heap (h : Heap) (amAddr asAddr : Addr) : Option (Heap × Addr) :=
  match h.read amAddr, h.read asAddr with
  | some am, some asd =>
    let (a2, h2) := h.alloc am
    let h3 := h2.write a2 (hDictUpdate am asd)
    some (h3, a2)
  | _, _ => none

/-!
### Observers on the sink-call log
-/

/-- Is this call an enter or a leave? -/
def SinkCall.isEL : SinkCall → Bool
  | .enter _ _ _ _ => true
  | .leave _ _ _ => true
  | _ => false

/-- The timestamp of an enter/leave call (0 for definition calls). -/
def SinkCall.elTime : SinkCall → ℤ
  | .enter _ t _ _ => t
  | .leave _ t _ => t
  | _ => 0

/-- Is this a location-group creation call? -/
def SinkCall.isLocationGroup : SinkCall → Bool
  | .locationGroup _ _ _ => true
  | _ => false

/-- Is this a region creation call? -/
def SinkCall.isRegionDef : SinkCall → Bool
  | .regionDef _ _ => true
  | _ => false

/-- Is this an event-writer creation call? -/
def SinkCall.isEventWriter : SinkCall → Bool
  | .eventWriter _ _ _ => true
  | _ => false

/-- Is this a metric creation call? -/
def SinkCall.isMetricDef : SinkCall → Bool
  | .metricDef _ _ _ => true
  | _ => false

/-- The enter/leave calls of a log, in order. -/
def elCalls (l : List SinkCall) : List SinkCall := l.filter SinkCall.isEL

/-- The (timestamp, region) pairs of the enter calls on one location. -/
def entersOn (loc : ℕ) (l : List SinkCall) : List (ℤ × ℕ) :=
  l.filterMap fun c =>
    match c with
    | .enter l' t reg _ => if l' = loc then some (t, reg) else none
    | _ => none

/-- The (timestamp, region) pairs of the leave calls on one location. -/
def leavesOn (loc : ℕ) (l : List SinkCall) : List (ℤ × ℕ) :=
  l.filterMap fun c =>
    match c with
    | .leave l' t reg => if l' = loc then some (t, reg) else none
    | _ => none

/-- The sink-call log of a conversion result (empty when it raised). -/
def runCalls (r : Except ConvError ConvState) : List SinkCall :=
  match r with
  | .ok st => st.calls
  | .error _ => []

/-- The thread location registered for `(pid, tid)`, if any. -/
def threadHandle (st : ConvState) (pid tid : ℤ) : Option ℕ :=
  (alookup st.processMap pid).bind fun p => alookup p.threads tid

/-- The abstract enter/leave call that `_handle_event` emits for a sub-event,
with the handles read from a given registry state. -/
def elOf (st : ConvState) (e : TraceEvent) : SinkCall :=
  let loc := (threadHandle st (e.pid.getD 0) (e.tid.getD 0)).getD 0
  let f := (alookup st.functionMap (e.name.getD "")).getD 0
  match e.dur with
  | some d => .leave loc (convert_time_to_ticks (e.ts.getD 0 + d)) f
  | none => .enter loc (convert_time_to_ticks (e.ts.getD 0)) f []

/-!
### Concrete documents used by witnesses and counterexamples
-/

/-- Metadata record naming process 1 "P". -/
def evP : TraceEvent :=
  { ph := some "M", pid := some 1, name := some "process_name", argsName := some "P" }

/-- Metadata record naming thread (1, 1) "T". -/
def evT : TraceEvent :=
  { ph := some "M", pid := some 1, tid := some 1, name := some "thread_name",
    argsName := some "T" }

/-- Complete event on thread (1, 1): region "f", ts 10 us, dur 5 us. -/
def evX : TraceEvent :=
  { ph := some "X", pid := some 1, tid := some 1, name := some "f",
    ts := some 10, dur := some 5 }

/-- A non-empty record with no `ph` key. -/
def evNoPh : TraceEvent := { pid := some 1 }

/-- A record with an unrecognized phase. -/
def evUnknown : TraceEvent := { ph := some "Z", pid := some 1 }

/-- Memory snapshot: activity "alloc" at 0 ps. -/
def snapA : MemorySnapshot :=
  { activityMetadata := [("memoryActivity", .s "alloc"), ("address", .s "77")],
    aggregationStats := [("freeMemoryBytes", .s "100")], timeOffsetPs := 0 }

/-- Memory snapshot: activity "free" at 2000 ps. -/
def snapB : MemorySnapshot :=
  { activityMetadata := [("memoryActivity", .s "free")],
    aggregationStats := [], timeOffsetPs := 2000 }

/-- A memory-profile document with two allocators, one snapshot each. -/
def memDoc2 : List (String × List MemorySnapshot) := [("A", [snapA]), ("B", [snapB])]

/-- The final state of converting a single-allocator memory document with
two snapshots. -/
def memFinal : ConvState :=
  (convert_memory_profile [("gpu_0", [snapA, snapB])] initState).toOption.getD {}

/-- The final state of the demo conversion: one process "P 1" (group 2),
one thread location 3, one region "f" (handle 4). -/
def demoFinal : ConvState :=
  (convert_event_trace [evP, evT, evX] initState).toOption.getD {}

/-- A counter record for the recognized metric on thread (1, 1). -/
def evC : TraceEvent :=
  { ph := some "C", pid := some 1, tid := some 1, name := some "Allocated Bytes",
    ts := some 1, argsAllocatorBytesInUse := some 42 }

/-- A complete event on the registered process 1 but an unseen thread 2. -/
def evX2 : TraceEvent :=
  { ph := some "X", pid := some 1, tid := some 2, name := some "f",
    ts := some 10, dur := some 5 }

/-- A counter record on the registered process 1 but an unseen thread 2. -/
def evC2 : TraceEvent :=
  { ph := some "C", pid := some 1, tid := some 2, name := some "Allocated Bytes",
    ts := some 1, argsAllocatorBytesInUse := some 42 }

instance {ε α : Type} [DecidableEq ε] [DecidableEq α] : DecidableEq (Except ε α) :=
  fun a b =>
    match a, b with
    | .ok x, .ok y =>
      if h : x = y then .isTrue (by rw [h]) else .isFalse (by simp [h])
    | .error x, .error y =>
      if h : x = y then .isTrue (by rw [h]) else .isFalse (by simp [h])
    | .ok _, .error _ => .isFalse (by simp)
    | .error _, .ok _ => .isFalse (by simp)

/-!
### Basic lemmas
-/

theorem alookup_cons {κ α : Type} [DecidableEq κ] (k k' : κ) (v : α) (l : List (κ × α)) :
    alookup ((k, v) :: l) k' = if k' = k then some v else alookup l k' := rfl

theorem alookup_mem {κ α : Type} [DecidableEq κ] {l : List (κ × α)} {k : κ} {v : α}
    (h : alookup l k = some v) : (k, v) ∈ l := by
  induction l with
  | nil => simp [alookup] at h
  | cons p l ih =>
    obtain ⟨k', v'⟩ := p
    rw [alookup_cons] at h
    by_cases hk : k = k'
    · subst hk
      simp at h
      subst h
      exact List.mem_cons_self ..
    · rw [if_neg hk] at h
      exact List.mem_cons_of_mem _ (ih h)

/-- Python truncation of an integer is that integer. -/
theorem pyTrunc_intCast (k : ℤ) : pyTrunc (k : ℚ) = k := by
  unfold pyTrunc
  by_cases hk : (0 : ℚ) ≤ (k : ℚ)
  · rw [if_pos hk, Int.floor_intCast]
  · rw [if_neg hk]
    rw [show (-(k : ℚ)) = ((-k : ℤ) : ℚ) by push_cast; ring, Int.floor_intCast]
    ring

/-- Truncation toward zero is monotone. -/
theorem pyTrunc_mono {a b : ℚ} (h : a ≤ b) : pyTrunc a ≤ pyTrunc b := by
  unfold pyTrunc
  by_cases ha : (0 : ℚ) ≤ a
  · rw [if_pos ha, if_pos (le_trans ha h)]
    exact Int.floor_le_floor h
  · rw [if_neg ha]
    by_cases hb : (0 : ℚ) ≤ b
    · rw [if_pos hb]
      have h1 : (0 : ℤ) ≤ ⌊b⌋ := Int.floor_nonneg.mpr hb
      have h2 : (0 : ℤ) ≤ ⌊-a⌋ := Int.floor_nonneg.mpr (by linarith)
      omega
    · rw [if_neg hb]
      have h1 : ⌊-b⌋ ≤ ⌊-a⌋ := Int.floor_le_floor (by linarith)
      omega

/-- The tick conversion is monotone. -/
theorem convert_time_to_ticks_mono {a b : ℚ} (h : a ≤ b) :
    convert_time_to_ticks a ≤ convert_time_to_ticks b := by
  unfold convert_time_to_ticks
  exact pyTrunc_mono (by nlinarith)

/-!
### Except plumbing
-/

theorem exceptBind_ok {α β : Type} {x : Except ConvError α} {f : α → Except ConvError β}
    {b : β} (h : (x >>= f) = .ok b) : ∃ a, x = .ok a ∧ f a = .ok b := by
  cases x with
  | ok a => exact ⟨a, rfl, h⟩
  | error e => simp [bind, Except.bind] at h

theorem getKey_eq {α : Type} {o : Option α} {k : String} {v : α}
    (h : getKey o k = .ok v) : o = some v := by
  cases o with
  | some w => simpa [getKey] using h
  | none => simp [getKey] at h

theorem ok_inj {α : Type} {a b : α} (h : (Except.ok a : Except ConvError α) = .ok b) :
    a = b := by
  cases h; rfl

/-!
### What each handler appends to the enter/leave stream
-/

theorem elCalls_append (l1 l2 : List SinkCall) :
    elCalls (l1 ++ l2) = elCalls l1 ++ elCalls l2 := List.filter_append ..

theorem elCalls_emit_nonEL {st : ConvState} {c : SinkCall} (hc : c.isEL = false) :
    elCalls (emit st c).calls = elCalls st.calls := by
  simp [emit, elCalls, List.filter_append, hc]

theorem otf2_add_process_elCalls (pid : ℤ) (name : String) (st : ConvState) :
    elCalls (otf2_add_process pid name st).calls = elCalls st.calls := by
  simp only [otf2_add_process, fresh, emit]
  split <;> simp [elCalls, List.filter_append, SinkCall.isEL]

theorem otf2_add_process_functionMap (pid : ℤ) (name : String) (st : ConvState) :
    (otf2_add_process pid name st).functionMap = st.functionMap := by
  simp only [otf2_add_process, fresh, emit]
  split <;> rfl

theorem otf2_add_thread_ok {tid pid : ℤ} {n : Option String} {st st' : ConvState}
    (h : otf2_add_thread tid pid n st = .ok st') :
    elCalls st'.calls = elCalls st.calls ∧ st'.functionMap = st.functionMap ∧
      st'.metricMap = st.metricMap := by
  unfold otf2_add_thread at h
  cases hp : alookup st.processMap pid with
  | none => rw [hp] at h; exact absurd h (by simp)
  | some p =>
    rw [hp] at h
    have := ok_inj h
    subst this
    refine ⟨?_, rfl, rfl⟩
    simp [emit, fresh, elCalls, List.filter_append, SinkCall.isEL]

theorem otf2_add_function_elCalls (name : String) (st : ConvState) :
    elCalls (otf2_add_function name st).calls = elCalls st.calls := by
  simp [otf2_add_function, emit, fresh, elCalls, List.filter_append, SinkCall.isEL]

theorem otf2_add_metric_elCalls (name unit : String) (st : ConvState) :
    elCalls (otf2_add_metric name unit st).calls = elCalls st.calls := by
  simp [otf2_add_metric, emit, fresh, elCalls, List.filter_append, SinkCall.isEL]

theorem ensure_process_ok {e : TraceEvent} {pid : ℤ} {st st' : ConvState}
    (h : ensure_process e pid st = .ok st') :
    elCalls st'.calls = elCalls st.calls := by
  unfold ensure_process at h
  split at h
  · obtain ⟨an, _, h⟩ := exceptBind_ok h
    have := ok_inj h
    subst this
    exact otf2_add_process_elCalls ..
  · have := ok_inj h
    subst this
    rfl

theorem ensure_thread_ok {tid pid : ℤ} {p : Process} {st st' : ConvState}
    (h : ensure_thread tid pid p st = .ok st') :
    elCalls st'.calls = elCalls st.calls ∧ st'.functionMap = st.functionMap ∧
      st'.metricMap = st.metricMap := by
  unfold ensure_thread at h
  split at h
  · exact otf2_add_thread_ok h
  · have := ok_inj h
    subst this
    exact ⟨rfl, rfl, rfl⟩

theorem ensure_metric_elCalls (name unit : String) (st : ConvState) :
    elCalls (ensure_metric name unit st).calls = elCalls st.calls := by
  unfold ensure_metric
  split
  · exact otf2_add_metric_elCalls ..
  · rfl

theorem ensure_function_elCalls (name : String) (st : ConvState) :
    elCalls (ensure_function name st).calls = elCalls st.calls := by
  unfold ensure_function
  split
  · exact otf2_add_function_elCalls ..
  · rfl

theorem handle_metadata_elCalls {e : TraceEvent} {st st' : ConvState}
    (h : handle_metadata e st = .ok st') : elCalls st'.calls = elCalls st.calls := by
  unfold handle_metadata at h
  split at h
  · obtain ⟨an, _, h⟩ := exceptBind_ok h
    obtain ⟨pid, _, h⟩ := exceptBind_ok h
    have := ok_inj h
    subst this
    exact otf2_add_process_elCalls ..
  · split at h
    · obtain ⟨pid, _, h⟩ := exceptBind_ok h
      obtain ⟨tid, _, h⟩ := exceptBind_ok h
      split at h
      · exact (ok_inj h) ▸ rfl
      · obtain ⟨st1, hst1, h⟩ := exceptBind_ok h
        have hcalls1 : elCalls st1.calls = elCalls st.calls := ensure_process_ok hst1
        obtain ⟨p, _, h⟩ := exceptBind_ok h
        split at h
        · exact absurd h (by simp)
        · obtain ⟨an, _, h⟩ := exceptBind_ok h
          rw [(otf2_add_thread_ok h).1, hcalls1]
    · have := ok_inj h
      subst this
      rfl

theorem handle_dataflow_calls {e : TraceEvent} {st st' : ConvState}
    (h : handle_dataflow e st = .ok st') : st'.calls = st.calls := by
  unfold handle_dataflow at h
  split at h
  · obtain ⟨i, _, h⟩ := exceptBind_ok h
    have := ok_inj h
    subst this
    split <;> rfl
  · split at h
    · obtain ⟨i, _, h⟩ := exceptBind_ok h
      have := ok_inj h
      subst this
      split <;> rfl
    · have := ok_inj h
      subst this
      rfl

theorem handle_metric_elCalls {e : TraceEvent} {st st' : ConvState}
    (h : handle_metric e st = .ok st') : elCalls st'.calls = elCalls st.calls := by
  unfold handle_metric at h
  obtain ⟨mn, _, h⟩ := exceptBind_ok h
  obtain ⟨pid, _, h⟩ := exceptBind_ok h
  obtain ⟨tid, _, h⟩ := exceptBind_ok h
  split at h
  · obtain ⟨p, _, h⟩ := exceptBind_ok h
    obtain ⟨st1, hst1, h⟩ := exceptBind_ok h
    have hcalls1 : elCalls st1.calls = elCalls st.calls := by
      rw [(ensure_thread_ok hst1).1, ensure_metric_elCalls]
    obtain ⟨v, _, h⟩ := exceptBind_ok h
    obtain ⟨p2, _, h⟩ := exceptBind_ok h
    obtain ⟨loc, _, h⟩ := exceptBind_ok h
    obtain ⟨m, _, h⟩ := exceptBind_ok h
    obtain ⟨ts, _, h⟩ := exceptBind_ok h
    have := ok_inj h
    subst this
    have hemit : SinkCall.isEL (.metricSample loc (convert_time_to_ticks ts) m v) = false := rfl
    rw [elCalls_emit_nonEL hemit, hcalls1]
  · have := ok_inj h
    subst this
    rfl

theorem classify_event_elCalls {st : ConvState} {e : TraceEvent} {st' : ConvState}
    (h : classify_event st e = .ok st') : elCalls st'.calls = elCalls st.calls := by
  unfold classify_event at h
  split at h
  · exact (ok_inj h) ▸ rfl
  · obtain ⟨ph, _, h⟩ := exceptBind_ok h
    split at h
    · exact handle_metadata_elCalls h
    · split at h
      · rw [handle_dataflow_calls h]
      · split at h
        · exact handle_metric_elCalls h
        · split at h
          · exact (ok_inj h) ▸ rfl
          · exact (ok_inj h) ▸ rfl

/-- The classifier pass appends no enter/leave call. -/
theorem classify_fold_elCalls {events : List TraceEvent} {st st' : ConvState}
    (h : events.foldlM classify_event st = .ok st') :
    elCalls st'.calls = elCalls st.calls := by
  induction events generalizing st with
  | nil =>
    rw [List.foldlM_nil] at h
    exact (ok_inj h) ▸ rfl
  | cons e rest ih =>
    rw [List.foldlM_cons] at h
    obtain ⟨st1, h1, h2⟩ := exceptBind_ok h
    rw [ih h2, classify_event_elCalls h1]

/-!
### Registry monotonicity and the shape of the second pass
-/

theorem elCalls_emit_EL {st : ConvState} {c : SinkCall} (hc : c.isEL = true) :
    elCalls (emit st c).calls = elCalls st.calls ++ [c] := by
  simp [emit, elCalls, List.filter_append, hc]

/-- Registered thread locations and regions survive later registrations. -/
def RegLE (st st' : ConvState) : Prop :=
  (∀ pid tid h, threadHandle st pid tid = some h → threadHandle st' pid tid = some h) ∧
  (∀ n h, alookup st.functionMap n = some h → alookup st'.functionMap n = some h)

theorem RegLE_rfl (st : ConvState) : RegLE st st :=
  ⟨fun _ _ _ h => h, fun _ _ h => h⟩

theorem RegLE_trans {a b c : ConvState} (h1 : RegLE a b) (h2 : RegLE b c) : RegLE a c :=
  ⟨fun p t h hh => h2.1 p t h (h1.1 p t h hh), fun n h hh => h2.2 n h (h1.2 n h hh)⟩

theorem RegLE_of_eq {st st' : ConvState} (hp : st'.processMap = st.processMap)
    (hf : st'.functionMap = st.functionMap) : RegLE st st' :=
  ⟨fun _ _ _ h => by rw [threadHandle, hp]; exact h, fun _ _ h => by rw [hf]; exact h⟩

/-- The sub-event's thread location and region exist in the registry. -/
def elReady (st : ConvState) (e : TraceEvent) : Prop :=
  (threadHandle st (e.pid.getD 0) (e.tid.getD 0)).isSome = true ∧
  (alookup st.functionMap (e.name.getD "")).isSome = true

theorem elOf_congr {st1 st2 : ConvState} {e : TraceEvent} (hle : RegLE st1 st2)
    (hr : elReady st1 e) : elOf st1 e = elOf st2 e ∧ elReady st2 e := by
  obtain ⟨hth, hfn⟩ := hr
  obtain ⟨loc, hloc⟩ := Option.isSome_iff_exists.mp hth
  obtain ⟨f, hf⟩ := Option.isSome_iff_exists.mp hfn
  have hloc2 := hle.1 _ _ _ hloc
  have hf2 := hle.2 _ _ hf
  refine ⟨?_, ?_, ?_⟩
  · unfold elOf
    rw [hloc, hloc2, hf, hf2]
  · rw [hloc2]; rfl
  · rw [hf2]; rfl

theorem threadHandle_of_lookup {st : ConvState} {pid : ℤ} {p : Process} (tid : ℤ)
    (h : alookup st.processMap pid = some p) :
    threadHandle st pid tid = alookup p.threads tid := by
  unfold threadHandle
  rw [h]
  rfl

theorem otf2_add_thread_processMap {tid pid : ℤ} {n : Option String}
    {st st' : ConvState} {p : Process} (hp : alookup st.processMap pid = some p)
    (h : otf2_add_thread tid pid n st = .ok st') :
    st'.processMap
      = (pid, { p with threads := (tid, st.nextHandle) :: p.threads }) :: st.processMap := by
  unfold otf2_add_thread at h
  rw [hp] at h
  have := ok_inj h
  subst this
  rfl

theorem otf2_add_function_maps (name : String) (st : ConvState) :
    (otf2_add_function name st).functionMap = (name, st.nextHandle) :: st.functionMap ∧
      (otf2_add_function name st).processMap = st.processMap := ⟨rfl, rfl⟩

theorem ensure_thread_spec {tid pid : ℤ} {p : Process} {st st' : ConvState}
    (hp : alookup st.processMap pid = some p)
    (h : ensure_thread tid pid p st = .ok st') :
    RegLE st st' ∧ (threadHandle st' pid tid).isSome = true := by
  unfold ensure_thread at h
  split at h
  · rename_i hnone
    rw [Option.isNone_iff_eq_none] at hnone
    have hpm := otf2_add_thread_processMap hp h
    have hfm := (otf2_add_thread_ok h).2.1
    have hlp : alookup st'.processMap pid
        = some { p with threads := (tid, st.nextHandle) :: p.threads } := by
      rw [hpm, alookup_cons, if_pos rfl]
    refine ⟨⟨?_, fun n hh hhh => by rw [hfm]; exact hhh⟩, ?_⟩
    · intro pid' tid' hh hth
      by_cases hpe : pid' = pid
      · subst hpe
        rw [threadHandle_of_lookup tid' hp] at hth
        have htne : tid' ≠ tid := by
          intro hte
          rw [hte, hnone] at hth
          cases hth
        rw [threadHandle_of_lookup tid' hlp]
        show alookup ((tid, st.nextHandle) :: p.threads) tid' = some hh
        rw [alookup_cons, if_neg htne]
        exact hth
      · unfold threadHandle at hth ⊢
        rw [hpm, alookup_cons, if_neg hpe]
        exact hth
    · rw [threadHandle_of_lookup tid hlp]
      show (alookup ((tid, st.nextHandle) :: p.threads) tid).isSome = true
      rw [alookup_cons, if_pos rfl]
      rfl
  · have := ok_inj h
    subst this
    rename_i hsome
    refine ⟨RegLE_rfl _, ?_⟩
    rw [threadHandle_of_lookup tid hp]
    cases halo : alookup p.threads tid with
    | none => rw [halo] at hsome; exact absurd rfl hsome
    | some v => rfl

theorem ensure_function_spec (name : String) (st : ConvState) :
    RegLE st (ensure_function name st) ∧
    (ensure_function name st).processMap = st.processMap := by
  unfold ensure_function
  split
  · rename_i hnone
    rw [Option.isNone_iff_eq_none] at hnone
    refine ⟨⟨?_, ?_⟩, (otf2_add_function_maps name st).2⟩
    · intro pid' tid' hh hth
      unfold threadHandle at hth ⊢
      rw [(otf2_add_function_maps name st).2]
      exact hth
    · intro n h hh
      rw [(otf2_add_function_maps name st).1, alookup_cons]
      have hne : n ≠ name := by
        intro he
        rw [he, hnone] at hh
        cases hh
      rw [if_neg hne]
      exact hh
  · exact ⟨RegLE_rfl _, rfl⟩

theorem elOf_emit (st : ConvState) (c : SinkCall) (e : TraceEvent) :
    elOf (emit st c) e = elOf st e := rfl

theorem threadHandle_emit (st : ConvState) (c : SinkCall) (pid tid : ℤ) :
    threadHandle (emit st c) pid tid = threadHandle st pid tid := rfl

theorem elOf_eq_leave {st : ConvState} {e : TraceEvent} {pid tid : ℤ} {nm : String}
    {ts d : ℚ} {loc f : ℕ} (hpid : e.pid = some pid) (htid : e.tid = some tid)
    (hnm : e.name = some nm) (hts : e.ts = some ts) (hdur : e.dur = some d)
    (hth : threadHandle st pid tid = some loc)
    (hf : alookup st.functionMap nm = some f) :
    elOf st e = .leave loc (convert_time_to_ticks (ts + d)) f := by
  unfold elOf
  rw [hpid, htid, hnm, hts, hdur]
  simp only [Option.getD_some]
  rw [hth, hf]
  rfl

theorem elOf_eq_enter {st : ConvState} {e : TraceEvent} {pid tid : ℤ} {nm : String}
    {ts : ℚ} {loc f : ℕ} (hpid : e.pid = some pid) (htid : e.tid = some tid)
    (hnm : e.name = some nm) (hts : e.ts = some ts) (hdur : e.dur = none)
    (hth : threadHandle st pid tid = some loc)
    (hf : alookup st.functionMap nm = some f) :
    elOf st e = .enter loc (convert_time_to_ticks ts) f [] := by
  unfold elOf
  rw [hpid, htid, hnm, hts, hdur]
  simp only [Option.getD_some]
  rw [hth, hf]
  rfl

/-- What one `_handle_event` call does: it extends the registry
monotonically, appends exactly one enter/leave call (the abstract `elOf`
call), and afterwards the sub-event's handles are registered. -/
theorem handle_event_spec {e : TraceEvent} {st st' : ConvState}
    (h : handle_event e st = .ok st') :
    RegLE st st' ∧ elCalls st'.calls = elCalls st.calls ++ [elOf st' e] ∧
      elReady st' e := by
  unfold handle_event at h
  obtain ⟨pid, hpid, h⟩ := exceptBind_ok h
  obtain ⟨tid, htid, h⟩ := exceptBind_ok h
  obtain ⟨p, hp, h⟩ := exceptBind_ok h
  obtain ⟨st1, hst1, h⟩ := exceptBind_ok h
  obtain ⟨name, hname, h⟩ := exceptBind_ok h
  obtain ⟨p2, hp2, h⟩ := exceptBind_ok h
  obtain ⟨loc, hloc, h⟩ := exceptBind_ok h
  obtain ⟨f, hf, h⟩ := exceptBind_ok h
  have hpid' := getKey_eq hpid
  have htid' := getKey_eq htid
  have hp' := getKey_eq hp
  have hname' := getKey_eq hname
  have hp2' := getKey_eq hp2
  have hloc' := getKey_eq hloc
  have hf' := getKey_eq hf
  obtain ⟨hreg1, _⟩ := ensure_thread_spec hp' hst1
  obtain ⟨hreg2, _⟩ := ensure_function_spec name st1
  have hregs : RegLE st (ensure_function name st1) := RegLE_trans hreg1 hreg2
  have hth2 : threadHandle (ensure_function name st1) pid tid = some loc := by
    rw [threadHandle_of_lookup tid hp2']
    exact hloc'
  have hcalls2 : elCalls (ensure_function name st1).calls = elCalls st.calls := by
    rw [ensure_function_elCalls, (ensure_thread_ok hst1).1]
  cases hdur : e.dur with
  | some d =>
    rw [hdur] at h
    obtain ⟨ts, hts, h⟩ := exceptBind_ok h
    have hts' := getKey_eq hts
    have := ok_inj h
    subst this
    have hElOf : elOf (emit (ensure_function name st1)
        (.leave loc (convert_time_to_ticks (ts + d)) f)) e
        = .leave loc (convert_time_to_ticks (ts + d)) f := by
      rw [elOf_emit]
      exact elOf_eq_leave hpid' htid' hname' hts' hdur hth2 hf'
    have hemitEL : elCalls (emit (ensure_function name st1)
        (.leave loc (convert_time_to_ticks (ts + d)) f)).calls
        = elCalls (ensure_function name st1).calls
          ++ [SinkCall.leave loc (convert_time_to_ticks (ts + d)) f] :=
      elCalls_emit_EL rfl
    refine ⟨RegLE_trans hregs (RegLE_of_eq rfl rfl), ?_, ?_, ?_⟩
    · rw [hemitEL, hcalls2, hElOf]
    · rw [hpid', htid']
      simp only [Option.getD_some]
      rw [threadHandle_emit, hth2]
      rfl
    · rw [hname']
      simp only [Option.getD_some]
      show (alookup (ensure_function name st1).functionMap name).isSome = true
      rw [hf']
      rfl
  | none =>
    rw [hdur] at h
    obtain ⟨ts, hts, h⟩ := exceptBind_ok h
    have hts' := getKey_eq hts
    have := ok_inj h
    subst this
    have hElOf : elOf (emit (ensure_function name st1)
        (.enter loc (convert_time_to_ticks ts) f [])) e
        = .enter loc (convert_time_to_ticks ts) f [] := by
      rw [elOf_emit]
      exact elOf_eq_enter hpid' htid' hname' hts' hdur hth2 hf'
    have hemitEL : elCalls (emit (ensure_function name st1)
        (.enter loc (convert_time_to_ticks ts) f [])).calls
        = elCalls (ensure_function name st1).calls
          ++ [SinkCall.enter loc (convert_time_to_ticks ts) f []] :=
      elCalls_emit_EL rfl
    refine ⟨RegLE_trans hregs (RegLE_of_eq rfl rfl), ?_, ?_, ?_⟩
    · rw [hemitEL, hcalls2, hElOf]
    · rw [hpid', htid']
      simp only [Option.getD_some]
      rw [threadHandle_emit, hth2]
      rfl
    · rw [hname']
      simp only [Option.getD_some]
      show (alookup (ensure_function name st1).functionMap name).isSome = true
      rw [hf']
      rfl

/-- What the whole second pass does, for a list of complete sub-events:
the enter/leave stream is extended by exactly the abstract calls of the
processed sub-events, with handles as registered in the final state. -/
theorem handle_sorted_fold_spec {l : List TraceEvent} {st st' : ConvState}
    (hX : ∀ e ∈ l, e.ph = some "X")
    (h : l.foldlM handle_sorted_event st = .ok st') :
    RegLE st st' ∧ (∀ e ∈ l, elReady st' e) ∧
      elCalls st'.calls = elCalls st.calls ++ l.map (elOf st') := by
  induction l generalizing st with
  | nil =>
    rw [List.foldlM_nil] at h
    have := ok_inj h
    subst this
    exact ⟨RegLE_rfl _, by simp, by simp⟩
  | cons e rest ih =>
    rw [List.foldlM_cons] at h
    obtain ⟨st1, h1, h2⟩ := exceptBind_ok h
    have hXe : e.ph = some "X" := hX e (List.mem_cons_self e rest)
    rw [handle_sorted_event, if_pos hXe] at h1
    obtain ⟨hr1, hc1, hready1⟩ := handle_event_spec h1
    obtain ⟨hr2, hready2, hc2⟩ := ih (fun e' he' => hX e' (List.mem_cons_of_mem _ he')) h2
    obtain ⟨hcong, hready'⟩ := elOf_congr hr2 hready1
    refine ⟨RegLE_trans hr1 hr2, ?_, ?_⟩
    · intro e' he'
      rcases List.mem_cons.mp he' with heq | hmem
      · subst heq; exact hready'
      · exact hready2 e' hmem
    · rw [hc2, hc1, hcong]
      simp

/-!
### The splitting pass, characterized
-/

theorem split_events_foldl (events : List TraceEvent) (acc : List TraceEvent) :
    events.foldl (fun acc e => if isCompleteEvent e then acc ++ [eraseDur e, e] else acc) acc
      = acc ++ events.foldl
          (fun acc e => if isCompleteEvent e then acc ++ [eraseDur e, e] else acc) [] := by
  induction events generalizing acc with
  | nil => simp
  | cons e rest ih =>
    simp only [List.foldl_cons]
    by_cases hc : isCompleteEvent e
    · rw [if_pos hc, if_pos hc, ih (acc ++ [eraseDur e, e]), ih ([] ++ [eraseDur e, e])]
      simp
    · rw [if_neg hc, if_neg hc]
      exact ih acc

theorem split_events_cons (e : TraceEvent) (rest : List TraceEvent) :
    split_events (e :: rest)
      = (if isCompleteEvent e then [eraseDur e, e] else []) ++ split_events rest := by
  unfold split_events
  simp only [List.foldl_cons]
  by_cases hc : isCompleteEvent e
  · rw [if_pos hc, if_pos hc, split_events_foldl]
    simp
  · rw [if_neg hc, if_neg hc]
    simp

theorem isCompleteEvent_ph {e : TraceEvent} (h : isCompleteEvent e = true) :
    e.ph = some "X" := by
  unfold isCompleteEvent at h
  simp only [Bool.and_eq_true, beq_iff_eq] at h
  exact h.2

theorem mem_split_events {events : List TraceEvent} {e' : TraceEvent}
    (h : e' ∈ split_events events) : e'.ph = some "X" := by
  induction events with
  | nil => cases h
  | cons e rest ih =>
    rw [split_events_cons] at h
    rcases List.mem_append.mp h with h1 | h1
    · by_cases hc : isCompleteEvent e
      · rw [if_pos hc] at h1
        rcases List.mem_cons.mp h1 with heq | h2
        · subst heq
          show e.ph = some "X"
          exact isCompleteEvent_ph hc
        · rcases List.mem_cons.mp h2 with heq | h3
          · subst heq
            exact isCompleteEvent_ph hc
          · cases h3
      · rw [if_neg hc] at h1
        cases h1
    · exact ih h1

theorem pair_sublist_split {events : List TraceEvent} {e : TraceEvent}
    (he : e ∈ events) (hc : isCompleteEvent e = true) :
    List.Sublist [eraseDur e, e] (split_events events) := by
  induction events with
  | nil => cases he
  | cons a rest ih =>
    rw [split_events_cons]
    rcases List.mem_cons.mp he with heq | hmem
    · subst heq
      rw [if_pos hc]
      exact List.sublist_append_left ..
    · exact (ih hmem).trans (List.sublist_append_right ..)

theorem sortRel_eraseDur {e : TraceEvent} {d : ℚ} (hdur : e.dur = some d)
    (hd : 0 ≤ d) : sortRel (eraseDur e) e := by
  unfold sortRel sortKey eraseDur
  simp only [hdur]
  simp only [Option.getD_some, Option.getD_none]
  linarith

theorem elTime_elOf (st : ConvState) (e : TraceEvent) :
    SinkCall.elTime (elOf st e) = convert_time_to_ticks (sortKey e) := by
  unfold elOf sortKey
  cases e.dur with
  | some d => simp [SinkCall.elTime]
  | none => simp [SinkCall.elTime]

/-!
### Claims C1 and C8
-/

/-- C1: for every event-trace document, the enter/leave calls that reach the
sink are globally non-decreasing in timestamp, across all threads: every
complete event is split into an enter sub-event (sort key `ts`) and a leave
sub-event (sort key `ts + dur`), all sub-events are emitted in ascending
order of this key, and the emitted timestamp is the monotone tick conversion
of the key. -/
theorem C1_global_order (events : List TraceEvent) (st' : ConvState)
    (h : convert_event_trace events initState = .ok st') :
    ((elCalls st'.calls).map SinkCall.elTime).Pairwise (· ≤ ·) := by
  unfold convert_event_trace at h
  obtain ⟨st1, h1, h2⟩ := exceptBind_ok h
  have e1 : elCalls st1.calls = elCalls initState.calls := classify_fold_elCalls h1
  have e0 : elCalls initState.calls = [] := rfl
  have hX : ∀ e ∈ List.insertionSort sortRel (split_events events), e.ph = some "X" := by
    intro e he
    exact mem_split_events ((List.mem_insertionSort sortRel).mp he)
  obtain ⟨_, _, hcalls⟩ := handle_sorted_fold_spec hX h2
  rw [hcalls, e1, e0, List.nil_append, List.map_map]
  have hsorted : List.Pairwise sortRel
      (List.insertionSort sortRel (split_events events)) :=
    List.sorted_insertionSort sortRel (split_events events)
  refine List.Pairwise.map _ ?_ hsorted
  intro a b hab
  show SinkCall.elTime (elOf st' a) ≤ SinkCall.elTime (elOf st' b)
  rw [elTime_elOf, elTime_elOf]
  exact convert_time_to_ticks_mono hab

theorem C1_witness :
    ((elCalls ((convert_event_trace [evP, evT, evX] initState).toOption.getD {}).calls).map
        SinkCall.elTime).Pairwise (· ≤ ·) :=
  C1_global_order [evP, evT, evX]
    ((convert_event_trace [evP, evT, evX] initState).toOption.getD {})
    (by with_unfolding_all rfl)

/-- C8: every complete event with `ts`, `dur`, `pid`, `tid`, `name` present
and `dur ≥ 0` produces an enter at `ts` and a leave at `ts + dur`, with
enter timestamp ≤ leave timestamp, both on the thread location registered
for `(pid, tid)` and with the region registered for `name`, and the enter is
emitted before the leave (also when the two timestamps are equal, by
stability of the sort). -/
theorem C8_enter_leave_pair (events : List TraceEvent) (st' : ConvState)
    (e : TraceEvent) (pid tid : ℤ) (nm : String) (ts dur : ℚ)
    (h : convert_event_trace events initState = .ok st')
    (he : e ∈ events) (hph : e.ph = some "X") (hpid : e.pid = some pid)
    (htid : e.tid = some tid) (hnm : e.name = some nm) (hts : e.ts = some ts)
    (hdur : e.dur = some dur) (hd : 0 ≤ dur) :
    convert_time_to_ticks ts ≤ convert_time_to_ticks (ts + dur) ∧
    ∃ loc f, threadHandle st' pid tid = some loc ∧
      alookup st'.functionMap nm = some f ∧
      List.Sublist [SinkCall.enter loc (convert_time_to_ticks ts) f [],
       SinkCall.leave loc (convert_time_to_ticks (ts + dur)) f] st'.calls := by
  unfold convert_event_trace at h
  obtain ⟨st1, h1, h2⟩ := exceptBind_ok h
  have hc : isCompleteEvent e = true := by
    unfold isCompleteEvent
    rw [hts, hdur, hph]
    rfl
  have hsplit := pair_sublist_split he hc
  have hpair : List.Sublist [eraseDur e, e]
      (List.insertionSort sortRel (split_events events)) :=
    List.pair_sublist_insertionSort (sortRel_eraseDur hdur hd) hsplit
  have hX : ∀ x ∈ List.insertionSort sortRel (split_events events), x.ph = some "X" := by
    intro x hx
    exact mem_split_events ((List.mem_insertionSort sortRel).mp hx)
  obtain ⟨_, hready, hcalls⟩ := handle_sorted_fold_spec hX h2
  have heMem : e ∈ List.insertionSort sortRel (split_events events) :=
    hpair.subset (by simp)
  obtain ⟨hthS, hfnS⟩ := hready e heMem
  rw [hpid, htid] at hthS
  simp only [Option.getD_some] at hthS
  rw [hnm] at hfnS
  simp only [Option.getD_some] at hfnS
  obtain ⟨loc, hloc⟩ := Option.isSome_iff_exists.mp hthS
  obtain ⟨f, hf⟩ := Option.isSome_iff_exists.mp hfnS
  refine ⟨convert_time_to_ticks_mono (by linarith), loc, f, hloc, hf, ?_⟩
  have hmap : List.Sublist [elOf st' (eraseDur e), elOf st' e]
      ((List.insertionSort sortRel (split_events events)).map (elOf st')) :=
    hpair.map (elOf st')
  have hEnter : elOf st' (eraseDur e)
      = SinkCall.enter loc (convert_time_to_ticks ts) f [] :=
    elOf_eq_enter hpid htid hnm hts rfl hloc hf
  have hLeave : elOf st' e
      = SinkCall.leave loc (convert_time_to_ticks (ts + dur)) f :=
    elOf_eq_leave hpid htid hnm hts hdur hloc hf
  rw [hEnter, hLeave] at hmap
  have hsub2 : List.Sublist [SinkCall.enter loc (convert_time_to_ticks ts) f [],
      SinkCall.leave loc (convert_time_to_ticks (ts + dur)) f] (elCalls st'.calls) := by
    rw [hcalls, classify_fold_elCalls h1]
    exact hmap.trans (List.sublist_append_right ..)
  exact hsub2.trans (List.filter_sublist _)

theorem C8_witness :
    convert_time_to_ticks 10 ≤ convert_time_to_ticks (10 + 5) ∧
    ∃ loc f,
      threadHandle ((convert_event_trace [evP, evT, evX] initState).toOption.getD {}) 1 1
          = some loc ∧
      alookup ((convert_event_trace [evP, evT, evX] initState).toOption.getD {}).functionMap
          "f" = some f ∧
      List.Sublist [SinkCall.enter loc (convert_time_to_ticks 10) f [],
       SinkCall.leave loc (convert_time_to_ticks (10 + 5)) f]
        ((convert_event_trace [evP, evT, evX] initState).toOption.getD {}).calls :=
  C8_enter_leave_pair [evP, evT, evX]
    ((convert_event_trace [evP, evT, evX] initState).toOption.getD {})
    evX 1 1 "f" 10 5 (by with_unfolding_all rfl) (by simp) rfl rfl rfl rfl rfl rfl
    (by norm_num)

/-!
### Heap frame lemmas (for the no-mutation claim)
-/

theorem Heap.alloc_fst (h : Heap) (d : HDict) : (h.alloc d).1 = h.next := rfl

theorem Heap.read_alloc_of_lt {h : Heap} {a : Addr} (ha : a < h.next) (d : HDict) :
    ((h.alloc d).2).read a = h.read a := by
  show alookup ((h.next, d) :: h.objs) a = _
  rw [alookup_cons, if_neg (Nat.ne_of_lt ha)]
  rfl

theorem Heap.read_write_ne {h : Heap} {a a2 : Addr} (ha : a ≠ a2) (d : HDict) :
    (h.write a2 d).read a = h.read a := by
  show alookup ((a2, d) :: h.objs) a = _
  rw [alookup_cons, if_neg ha]
  rfl

theorem Heap.wf_alloc {h : Heap} (hwf : h.wf) (d : HDict) : ((h.alloc d).2).wf := by
  intro p hp
  rcases List.mem_cons.mp hp with h1 | h1
  · subst h1; exact Nat.lt_succ_self _
  · exact Nat.lt_trans (hwf p h1) (Nat.lt_succ_self _)

theorem Heap.wf_write {h : Heap} (hwf : h.wf) {a2 : Addr} (ha : a2 < h.next) (d : HDict) :
    (h.write a2 d).wf := by
  intro p hp
  rcases List.mem_cons.mp hp with h1 | h1
  · subst h1; exact ha
  · exact hwf p h1

theorem Heap.read_lt_next {h : Heap} (hwf : h.wf) {a : Addr} {d : HDict}
    (hr : h.read a = some d) : a < h.next := hwf (a, d) (alookup_mem hr)

/-- One splitting step neither shrinks the allocation counter nor disturbs
any object already on a well-formed heap. -/
theorem split_heap_step_frame {acc : Heap × List Addr} (hwf : acc.1.wf) (a : Addr) :
    (split_heap_step acc a).1.wf ∧ acc.1.next ≤ (split_heap_step acc a).1.next ∧
      ∀ a' d', acc.1.read a' = some d' → (split_heap_step acc a).1.read a' = some d' := by
  unfold split_heap_step
  cases hr : acc.1.read a with
  | none => exact ⟨hwf, le_refl _, fun _ _ h => h⟩
  | some d =>
    by_cases hc : hIsComplete d
    · simp only [hc, if_pos]
      refine ⟨?_, ?_, ?_⟩
      · exact Heap.wf_write (Heap.wf_alloc hwf d) (Nat.lt_succ_self _) _
      · exact Nat.le_succ _
      · intro a' d' h'
        have hlt : a' < acc.1.next := Heap.read_lt_next hwf h'
        rw [Heap.alloc_fst, Heap.read_write_ne (Nat.ne_of_lt hlt) _,
          Heap.read_alloc_of_lt hlt]
        exact h'
    · simp only [hc, if_neg]
      exact ⟨hwf, le_refl _, fun _ _ h => h⟩

/-- The whole splitting loop preserves every pre-existing record. -/
theorem split_events_heap_frame (records : List Addr) (h0 : Heap) (hwf : h0.wf) :
    ∀ a d, h0.read a = some d → (split_events_heap h0 records).1.read a = some d := by
  suffices H : ∀ (acc : Heap × List Addr), acc.1.wf →
      (records.foldl split_heap_step acc).1.wf ∧
      ∀ a d, acc.1.read a = some d → (records.foldl split_heap_step acc).1.read a = some d by
    intro a d hr
    exact (H (h0, []) hwf).2 a d hr
  induction records with
  | nil => exact fun acc h => ⟨h, fun _ _ hr => hr⟩
  | cons r rs ih =>
    intro acc hacc
    obtain ⟨hwf1, _, hpres⟩ := split_heap_step_frame hacc r
    obtain ⟨hwf2, hpres2⟩ := ih (split_heap_step acc r) hwf1
    exact ⟨hwf2, fun a d hr => hpres2 a d (hpres a d hr)⟩

/-- The attribute merge preserves every pre-existing object. -/
theorem merge_attrs_heap_frame {h : Heap} {amAddr asAddr : Addr} {res : Heap × Addr}
    (hwf : h.wf) (hm : merge_attrs_heap h amAddr asAddr = some res) :
    ∀ a d, h.read a = some d → res.1.read a = some d := by
  intro a d hr
  unfold merge_attrs_heap at hm
  cases ham : h.read amAddr with
  | none => rw [ham] at hm; exact absurd hm (by simp)
  | some am =>
    cases has : h.read asAddr with
    | none => rw [ham, has] at hm; exact absurd hm (by simp)
    | some asd =>
      rw [ham, has] at hm
      simp only [Option.some_inj] at hm
      subst hm
      have hlt : a < h.next := Heap.read_lt_next hwf hr
      show ((h.alloc am).2.write (h.alloc am).1 (hDictUpdate am asd)).read a = some d
      rw [Heap.alloc_fst, Heap.read_write_ne (Nat.ne_of_lt hlt) _,
        Heap.read_alloc_of_lt hlt]
      exact hr

/-!
### Claim C10 (no input mutation)
-/

/-- C10: the conversion never mutates the decoded input documents.  The
splitting pass of the Timed-Event Sequencer deletes the `dur` key only on
the deep copy of a complete record, so every pre-existing record object
reads back unchanged; and the Memory-Profile Merger builds the merged
attribute set by updating a deep copy of `activityMetadata`, so every
pre-existing snapshot object reads back unchanged. -/
theorem C10_no_input_mutation :
    (∀ (h : Heap) (records : List Addr) (a : Addr) (d : HDict), h.wf →
        h.read a = some d → (split_events_heap h records).1.read a = some d) ∧
    (∀ (h : Heap) (amAddr asAddr a : Addr) (d : HDict) (res : Heap × Addr), h.wf →
        merge_attrs_heap h amAddr asAddr = some res →
        h.read a = some d → res.1.read a = some d) :=
  ⟨fun h records a d hwf hr => split_events_heap_frame records h hwf a d hr,
   fun _ _ _ a d _ hwf hm hr => merge_attrs_heap_frame hwf hm a d hr⟩

/-- A two-object heap: a complete trace record and a snapshot metadata
object. -/
def demoHeap : Heap :=
  { objs := [(0, [("ph", .hs "X"), ("ts", .hn 10), ("dur", .hn 5)]),
             (1, [("memoryActivity", .hs "alloc")])],
    next := 2 }

theorem C10_witness :
    (split_events_heap demoHeap [0]).1.read 0
        = some [("ph", HVal.hs "X"), ("ts", HVal.hn 10), ("dur", HVal.hn 5)] ∧
    ((merge_attrs_heap demoHeap 1 1).getD (demoHeap, 0)).1.read 1
        = some [("memoryActivity", HVal.hs "alloc")] := by
  constructor
  · exact C10_no_input_mutation.1 demoHeap [0] 0 _
      (by intro p hp; rcases List.mem_cons.mp hp with h | h
          · subst h; decide
          · rcases List.mem_cons.mp h with h | h
            · subst h; decide
            · simp at h) rfl
  · exact C10_no_input_mutation.2 demoHeap 1 1 1 _
      ((merge_attrs_heap demoHeap 1 1).getD (demoHeap, 0))
      (by intro p hp; rcases List.mem_cons.mp hp with h | h
          · subst h; decide
          · rcases List.mem_cons.mp h with h | h
            · subst h; decide
            · simp at h) rfl rfl

/-!
### Claim C4 (time conversion)
-/

/-- C4: over the documented input domain (fractional microseconds with at
most three decimal digits, i.e. an integer number of nanoseconds), the
event-trace conversion equals round-to-nearest of the microsecond value
times 1000; ts = 1000.123 us yields 1000123 ns, and the picosecond memory
timestamp 1500000 yields 1500 ns by floor division. -/
theorem C4_time_conversion (q : ℚ) (k : ℤ) (hk : q = (k : ℚ) / 1000) :
    convert_time_to_ticks q = round (q * 1000) ∧
    convert_time_to_ticks (1000123 / 1000) = 1000123 ∧
    memory_timestamp 1500000 = 1500 := by
  refine ⟨?_, ?_, by decide⟩
  · have hq : q * 1000 = (k : ℚ) := by rw [hk]; field_simp
    rw [convert_time_to_ticks, hq, pyTrunc_intCast, round_intCast]
  · have hq : ((1000123 : ℚ) / 1000) * 1000 = ((1000123 : ℤ) : ℚ) := by norm_num
    rw [convert_time_to_ticks, hq, pyTrunc_intCast]

theorem C4_witness :
    ((1000123 : ℚ) / 1000 = ((1000123 : ℤ) : ℚ) / 1000) ∧
    convert_time_to_ticks ((1000123 : ℚ) / 1000) = round (((1000123 : ℚ) / 1000) * 1000) :=
  ⟨by norm_num, (C4_time_conversion ((1000123 : ℚ) / 1000) 1000123 (by norm_num)).1⟩

/-!
### Claim C6 (duplicate thread declaration fails)
-/

/-- C6: a thread_name metadata event for a `(pid, tid)` already present in
the registry (outside the ignored pid = 0, tid = 0 case) raises the
duplicate-thread error — the assertion of chrome2otf2.py:251-253 — instead
of re-registering the thread. -/
theorem C6_duplicate_thread_fails (e : TraceEvent) (st : ConvState) (pid tid : ℤ)
    (p : Process) (h0 : e.name = some "thread_name") (h1 : e.pid = some pid)
    (h2 : e.tid = some tid) (h3 : ¬(pid = 0 ∧ tid = 0))
    (h4 : alookup st.processMap pid = some p)
    (h5 : (alookup p.threads tid).isSome) :
    handle_metadata e st = .error .duplicateThreadDeclaration := by
  unfold handle_metadata
  rw [h0]
  simp only [getKey, h1, h2, if_true, bind, Except.bind]
  rw [if_neg h3]
  simp [ensure_process, h4, h5, pure, Except.pure]

theorem C6_witness :
    handle_metadata evT
        { nextHandle := 4, systemTreeHost := 1,
          processMap := [(1, { name := "P 1", group := 2, threads := [(1, 3)] })] }
      = .error .duplicateThreadDeclaration :=
  C6_duplicate_thread_fails evT _ 1 1 { name := "P 1", group := 2, threads := [(1, 3)] }
    rfl rfl rfl (by decide) rfl (by decide)

/-!
### Counterexample and failing-input evaluations
-/

/-- C9 (amended): an empty record is silently skipped (without a report);
a non-empty record whose `ph` is present but not one of the recognized
discriminators (M, s, t, f, C, or X with both ts and dur) is reported as an
unknown event and skipped, the remaining records keep being processed, and
the record is ignored by the splitting pass; but a non-empty record with no
`ph` key aborts the run with a KeyError. -/
theorem C9_amended :
    (∀ (st : ConvState) (r : TraceEvent), r.isEmpty = true →
        classify_event st r = .ok st) ∧
    (∀ (st : ConvState) (r : TraceEvent) (p : String) (l : List TraceEvent),
        r.isEmpty = false → r.ph = some p →
        p ≠ "M" → p ≠ "s" → p ≠ "t" → p ≠ "f" → p ≠ "C" →
        ¬(p = "X" ∧ r.ts.isSome = true ∧ r.dur.isSome = true) →
        classify_event st r = .ok { st with diags := st.diags ++ [.unknownEvent r] } ∧
        (r :: l).foldlM classify_event st
          = l.foldlM classify_event { st with diags := st.diags ++ [.unknownEvent r] } ∧
        isCompleteEvent r = false) ∧
    (∀ (st : ConvState) (r : TraceEvent), r.isEmpty = false → r.ph = none →
        classify_event st r = .error (.keyError "ph")) := by
  refine ⟨?_, ?_, ?_⟩
  · intro st r h
    unfold classify_event
    rw [h]
    rfl
  · intro st r p l hne hph hM hs ht hf hC hX
    have hstep : classify_event st r
        = .ok { st with diags := st.diags ++ [.unknownEvent r] } := by
      unfold classify_event
      rw [hne, hph]
      simp only [Bool.false_eq_true, if_false, getKey, bind, Except.bind]
      rw [if_neg hM, if_neg (by simp [hs, ht, hf]), if_neg hC, if_neg hX]
    refine ⟨hstep, ?_, ?_⟩
    · rw [List.foldlM_cons, hstep]
      rfl
    · unfold isCompleteEvent
      by_cases hpx : p = "X"
      · subst hpx
        by_cases h1 : r.ts.isSome = true
        · by_cases h2 : r.dur.isSome = true
          · exact absurd ⟨rfl, h1, h2⟩ hX
          · rw [Bool.not_eq_true] at h2
            rw [h2]
            simp
        · rw [Bool.not_eq_true] at h1
          rw [h1]
          simp
      · have : (r.ph == some "X") = false := by
          rw [hph]
          simp [hpx]
        rw [this]
        simp
  · intro st r hne hph
    unfold classify_event
    rw [hne, hph]
    rfl

theorem C9_witness :
    classify_event initState {} = .ok initState ∧
    classify_event initState evUnknown
      = .ok { initState with diags := initState.diags ++ [.unknownEvent evUnknown] } ∧
    classify_event initState evNoPh = .error (.keyError "ph") :=
  ⟨C9_amended.1 initState {} rfl,
   (C9_amended.2.1 initState evUnknown "Z" [] rfl rfl (by decide) (by decide) (by decide)
      (by decide) (by decide) (by decide)).1,
   C9_amended.2.2 initState evNoPh rfl rfl⟩

/-- C9 counterexample: a non-empty record with no `ph` key does abort the
run: the classifier reads `event["ph"]` and the conversion raises KeyError,
contrary to the claim that such a record is reported and skipped. -/
theorem C9_counterexample :
    convert_event_trace [evNoPh] initState = .error (.keyError "ph") := by
  with_unfolding_all rfl

/-!
### Claim C7: lazy creation behaviour
-/

theorem ensure_function_isSome (name : String) (st : ConvState) :
    (alookup (ensure_function name st).functionMap name).isSome = true := by
  unfold ensure_function
  split
  · rw [(otf2_add_function_maps name st).1, alookup_cons, if_pos rfl]
    rfl
  · rename_i hsome
    cases halo : alookup st.functionMap name with
    | none => rw [halo] at hsome; exact absurd rfl hsome
    | some f => rfl

theorem ensure_metric_processMap (name unit : String) (st : ConvState) :
    (ensure_metric name unit st).processMap = st.processMap := by
  unfold ensure_metric
  split <;> rfl

theorem ensure_metric_isSome (name unit : String) (st : ConvState) :
    (alookup (ensure_metric name unit st).metricMap name).isSome = true := by
  unfold ensure_metric
  split
  · show (alookup ((name, st.nextHandle) :: st.metricMap) name).isSome = true
    rw [alookup_cons, if_pos rfl]
    rfl
  · rename_i hsome
    cases halo : alookup st.metricMap name with
    | none => rw [halo] at hsome; exact absurd rfl hsome
    | some m => rfl

/-- `_handle_event` always succeeds when the record's keys are present and
its `pid` is registered. -/
theorem handle_event_total {e : TraceEvent} {st : ConvState} {pid tid : ℤ}
    {p : Process} {nm : String} {ts : ℚ} (hpid : e.pid = some pid)
    (htid : e.tid = some tid) (hp : alookup st.processMap pid = some p)
    (hnm : e.name = some nm) (hts : e.ts = some ts) :
    ∃ st', handle_event e st = .ok st' := by
  obtain ⟨st1, hst1⟩ : ∃ st1, ensure_thread tid pid p st = .ok st1 := by
    unfold ensure_thread otf2_add_thread
    rw [hp]
    split
    · exact ⟨_, rfl⟩
    · exact ⟨_, rfl⟩
  have hth1 := (ensure_thread_spec hp hst1).2
  obtain ⟨p2, hp2⟩ : ∃ p2, alookup st1.processMap pid = some p2 := by
    unfold threadHandle at hth1
    cases halo : alookup st1.processMap pid with
    | none => rw [halo] at hth1; simp at hth1
    | some p2 => exact ⟨p2, rfl⟩
  obtain ⟨loc, hloc⟩ : ∃ loc, alookup p2.threads tid = some loc := by
    rw [threadHandle_of_lookup tid hp2] at hth1
    exact Option.isSome_iff_exists.mp hth1
  obtain ⟨f, hf⟩ := Option.isSome_iff_exists.mp (ensure_function_isSome nm st1)
  have hp2' : alookup (ensure_function nm st1).processMap pid = some p2 := by
    rw [(ensure_function_spec nm st1).2]
    exact hp2
  cases hdur : e.dur with
  | some d =>
    refine ⟨emit (ensure_function nm st1)
      (.leave loc (convert_time_to_ticks (ts + d)) f), ?_⟩
    simp only [handle_event, hpid, htid, hnm, getKey, bind, Except.bind, hp, hst1, hp2',
      hloc, hf, hdur, hts]
  | none =>
    refine ⟨emit (ensure_function nm st1)
      (.enter loc (convert_time_to_ticks ts) f []), ?_⟩
    simp only [handle_event, hpid, htid, hnm, getKey, bind, Except.bind, hp, hst1, hp2',
      hloc, hf, hdur, hts]

/-- C7 (amended): an event (timed or recognized-metric) whose `pid` has
never been seen makes the handler raise KeyError — the conversion fails —
while an event whose `pid` is registered is handled normally even when its
`tid` is unseen: the Thread is then lazily created and the event is
emitted. -/
theorem C7_amended :
    (∀ (e : TraceEvent) (st : ConvState) (pid tid : ℤ),
        e.pid = some pid → e.tid = some tid → alookup st.processMap pid = none →
        handle_event e st = .error (.keyError "pid")) ∧
    (∀ (e : TraceEvent) (st : ConvState) (pid tid : ℤ) (p : Process) (nm : String) (ts : ℚ),
        e.pid = some pid → e.tid = some tid → alookup st.processMap pid = some p →
        alookup p.threads tid = none → e.name = some nm → e.ts = some ts →
        ∃ st', handle_event e st = .ok st' ∧ RegLE st st' ∧
          (threadHandle st' pid tid).isSome = true ∧
          elCalls st'.calls = elCalls st.calls ++ [elOf st' e]) ∧
    (∀ (e : TraceEvent) (st : ConvState) (pid tid : ℤ),
        e.name = some "Allocated Bytes" → e.pid = some pid → e.tid = some tid →
        alookup st.processMap pid = none →
        handle_metric e st = .error (.keyError "pid")) ∧
    (∀ (e : TraceEvent) (st : ConvState) (pid tid : ℤ) (p : Process) (v : ℤ) (ts : ℚ),
        e.name = some "Allocated Bytes" → e.pid = some pid → e.tid = some tid →
        alookup st.processMap pid = some p → alookup p.threads tid = none →
        e.argsAllocatorBytesInUse = some v → e.ts = some ts →
        ∃ st', handle_metric e st = .ok st') := by
  refine ⟨?_, ?_, ?_, ?_⟩
  · intro e st pid tid hpid htid hnone
    simp only [handle_event, hpid, htid, getKey, bind, Except.bind, hnone]
  · intro e st pid tid p nm ts hpid htid hp hnone hnm hts
    obtain ⟨st', hrun⟩ := handle_event_total hpid htid hp hnm hts
    obtain ⟨hreg, hcalls, hready⟩ := handle_event_spec hrun
    refine ⟨st', hrun, hreg, ?_, hcalls⟩
    have h1 := hready.1
    rw [hpid, htid] at h1
    simpa using h1
  · intro e st pid tid hnm hpid htid hnone
    simp only [handle_metric, hnm, hpid, htid, getKey, bind, Except.bind,
      ensure_metric_processMap, hnone, if_pos]
  · intro e st pid tid p v ts hnm hpid htid hp hnone hv hts
    have hpM : alookup (ensure_metric "Allocated Bytes" "Bytes" st).processMap pid
        = some p := by
      rw [ensure_metric_processMap]
      exact hp
    obtain ⟨st1, hst1⟩ : ∃ st1,
        ensure_thread tid pid p (ensure_metric "Allocated Bytes" "Bytes" st) = .ok st1 := by
      unfold ensure_thread otf2_add_thread
      rw [hpM]
      split
      · exact ⟨_, rfl⟩
      · exact ⟨_, rfl⟩
    have hth1 := (ensure_thread_spec hpM hst1).2
    obtain ⟨p2, hp2⟩ : ∃ p2, alookup st1.processMap pid = some p2 := by
      unfold threadHandle at hth1
      cases halo : alookup st1.processMap pid with
      | none => rw [halo] at hth1; simp at hth1
      | some p2 => exact ⟨p2, rfl⟩
    obtain ⟨loc, hloc⟩ : ∃ loc, alookup p2.threads tid = some loc := by
      rw [threadHandle_of_lookup tid hp2] at hth1
      exact Option.isSome_iff_exists.mp hth1
    obtain ⟨m, hm⟩ : ∃ m, alookup st1.metricMap "Allocated Bytes" = some m := by
      have h1 : st1.metricMap = (ensure_metric "Allocated Bytes" "Bytes" st).metricMap :=
        (ensure_thread_ok hst1).2.2
      rw [h1]
      exact Option.isSome_iff_exists.mp (ensure_metric_isSome ..)
    refine ⟨emit st1 (.metricSample loc (convert_time_to_ticks ts) m v), ?_⟩
    simp only [handle_metric, hnm, hpid, htid, getKey, bind, Except.bind, hpM, hst1,
      hp2, hloc, hm, hv, hts, if_true]

theorem C7_witness :
    handle_event evX initState = .error (.keyError "pid") ∧
    (∃ st', handle_event evX2 demoFinal = .ok st' ∧ RegLE demoFinal st' ∧
      (threadHandle st' 1 2).isSome = true ∧
      elCalls st'.calls = elCalls demoFinal.calls ++ [elOf st' evX2]) ∧
    handle_metric evC initState = .error (.keyError "pid") ∧
    (∃ st', handle_metric evC2 demoFinal = .ok st') :=
  ⟨C7_amended.1 evX initState 1 1 rfl rfl rfl,
   C7_amended.2.1 evX2 demoFinal 1 2 { name := "P 1", group := 2, threads := [(1, 3)] }
    "f" 10 rfl rfl (by with_unfolding_all rfl) (by with_unfolding_all rfl) rfl rfl,
   C7_amended.2.2.1 evC initState 1 1 rfl rfl rfl rfl,
   C7_amended.2.2.2 evC2 demoFinal 1 2 { name := "P 1", group := 2, threads := [(1, 3)] }
    42 1 rfl rfl rfl (by with_unfolding_all rfl) (by with_unfolding_all rfl) rfl rfl⟩

/-- C7 counterexample: a complete event whose `pid` was never seen makes the
conversion fail with KeyError (chrome2otf2.py:263 reads
`self._process_map[pid]` unguarded), contrary to the claim that the Process
is lazily created. -/
theorem C7_counterexample :
    convert_event_trace [evX] initState = .error (.keyError "pid") := by
  with_unfolding_all rfl

/-!
### Claim C5: get-or-create behaviour per identifier kind
-/

theorem filter_append_singleton_false {p : SinkCall → Bool} {c : SinkCall}
    (l : List SinkCall) (hc : p c = false) :
    (l ++ [c]).filter p = l.filter p := by
  rw [List.filter_append]
  simp [hc]

theorem ensure_thread_of_some {tid pid : ℤ} {p : Process} {st : ConvState} {loc : ℕ}
    (h : alookup p.threads tid = some loc) : ensure_thread tid pid p st = .ok st := by
  unfold ensure_thread
  rw [h]
  rfl

theorem ensure_function_of_some {name : String} {st : ConvState} {f : ℕ}
    (h : alookup st.functionMap name = some f) : ensure_function name st = st := by
  unfold ensure_function
  rw [h]
  rfl

theorem ensure_metric_of_some {name unit : String} {st : ConvState} {m : ℕ}
    (h : alookup st.metricMap name = some m) : ensure_metric name unit st = st := by
  unfold ensure_metric
  rw [h]
  rfl

theorem ensure_thread_calls {tid pid : ℤ} {p : Process} {st st' : ConvState}
    (h : ensure_thread tid pid p st = .ok st') :
    st'.calls = st.calls ∨
      ∃ hdl w g, st'.calls = st.calls ++ [SinkCall.eventWriter hdl w g] := by
  unfold ensure_thread at h
  split at h
  · right
    unfold otf2_add_thread at h
    cases hq : alookup st.processMap pid with
    | none => rw [hq] at h; exact absurd h (by simp)
    | some q =>
      rw [hq] at h
      have := ok_inj h
      subst this
      exact ⟨_, _, _, rfl⟩
  · left
    have := ok_inj h
    subst this
    rfl

theorem ensure_function_calls (name : String) (st : ConvState) :
    (ensure_function name st).calls = st.calls ∨
      (ensure_function name st).calls = st.calls ++ [SinkCall.regionDef st.nextHandle name] := by
  unfold ensure_function
  split
  · right; rfl
  · left; rfl

theorem threadHandle_congr {st st' : ConvState} (h : st'.processMap = st.processMap)
    (pid tid : ℤ) : threadHandle st' pid tid = threadHandle st pid tid := by
  unfold threadHandle
  rw [h]

theorem otf2_add_process_processMap_of_some {pid : ℤ} {st : ConvState} {p : Process}
    (name : String) (hp : alookup st.processMap pid = some p) :
    (otf2_add_process pid name st).processMap
      = (pid, { p with group := st.nextHandle, name := if name = "" then toString pid else name })
          :: st.processMap := by
  simp only [otf2_add_process, fresh, emit]
  rw [hp]

theorem otf2_add_process_calls (pid : ℤ) (name : String) (st : ConvState) :
    (otf2_add_process pid name st).calls
      = st.calls ++ [SinkCall.locationGroup st.nextHandle
          (if name = "" then toString pid else name) st.systemTreeHost] := by
  simp only [otf2_add_process, fresh, emit]
  split <;> rfl

/-- C5 (amended): the registries are idempotent check-then-create for
threads, regions, metrics and attribute keys — a second registration keeps
the stored handle and issues no further creation call — but NOT for
processes: a second process_name metadata event for an already-registered
pid issues one more location-group creation call and replaces the stored
group handle. -/
theorem C5_amended :
    (∀ (e : TraceEvent) (st st' : ConvState) (nm : String) (f : ℕ),
        e.name = some nm → alookup st.functionMap nm = some f →
        handle_event e st = .ok st' →
        alookup st'.functionMap nm = some f ∧
        (st'.calls.filter SinkCall.isRegionDef).length
          = (st.calls.filter SinkCall.isRegionDef).length) ∧
    (∀ (e : TraceEvent) (st st' : ConvState) (pid tid : ℤ) (loc : ℕ),
        e.pid = some pid → e.tid = some tid →
        threadHandle st pid tid = some loc →
        handle_event e st = .ok st' →
        threadHandle st' pid tid = some loc ∧
        (st'.calls.filter SinkCall.isEventWriter).length
          = (st.calls.filter SinkCall.isEventWriter).length) ∧
    (∀ (e : TraceEvent) (st st' : ConvState) (m : ℕ),
        alookup st.metricMap "Allocated Bytes" = some m →
        handle_metric e st = .ok st' →
        alookup st'.metricMap "Allocated Bytes" = some m ∧
        (st'.calls.filter SinkCall.isMetricDef).length
          = (st.calls.filter SinkCall.isMetricDef).length) ∧
    (∀ (st : ConvState) (attrs : List (String × ℕ)) (out : List (ℕ × AttrVal))
        (key : String) (v : AttrVal) (hdl : ℕ)
        (res : ConvState × List (String × ℕ) × List (ℕ × AttrVal)),
        alookup attrs key = some hdl →
        add_attribute (st, attrs, out) (key, v) = .ok res →
        res.1 = st ∧ res.2.1 = attrs) ∧
    (∀ (pid : ℤ) (name : String) (st : ConvState) (p : Process),
        alookup st.processMap pid = some p →
        ((otf2_add_process pid name st).calls.filter SinkCall.isLocationGroup).length
          = (st.calls.filter SinkCall.isLocationGroup).length + 1 ∧
        ∃ p', alookup (otf2_add_process pid name st).processMap pid = some p' ∧
          p'.group = st.nextHandle) := by
  refine ⟨?_, ?_, ?_, ?_, ?_⟩
  · intro e st st' nm f hnm hf h
    unfold handle_event at h
    obtain ⟨pid, hpid, h⟩ := exceptBind_ok h
    obtain ⟨tid, htid, h⟩ := exceptBind_ok h
    obtain ⟨p, hp, h⟩ := exceptBind_ok h
    obtain ⟨st1, hst1, h⟩ := exceptBind_ok h
    obtain ⟨name, hname, h⟩ := exceptBind_ok h
    obtain rfl : nm = name := by
      have h1 := getKey_eq hname
      rw [hnm] at h1
      exact Option.some_inj.mp h1
    have hfm1 : st1.functionMap = st.functionMap := (ensure_thread_ok hst1).2.1
    have hef : ensure_function nm st1 = st1 :=
      ensure_function_of_some (by rw [hfm1]; exact hf)
    rw [hef] at h
    obtain ⟨p2, hp2, h⟩ := exceptBind_ok h
    obtain ⟨loc, hloc, h⟩ := exceptBind_ok h
    obtain ⟨ff, hff, h⟩ := exceptBind_ok h
    have hcount1 : (st1.calls.filter SinkCall.isRegionDef).length
        = (st.calls.filter SinkCall.isRegionDef).length := by
      rcases ensure_thread_calls hst1 with hc | ⟨hdl, w, g, hc⟩
      · rw [hc]
      · rw [hc, filter_append_singleton_false _ rfl]
    cases hdur : e.dur with
    | some d =>
      rw [hdur] at h
      obtain ⟨ts, hts, h⟩ := exceptBind_ok h
      have := ok_inj h
      subst this
      constructor
      · show alookup st1.functionMap nm = some f
        rw [hfm1]
        exact hf
      · show ((st1.calls ++ [SinkCall.leave loc (convert_time_to_ticks (ts + d)) ff]).filter
            SinkCall.isRegionDef).length = _
        rw [filter_append_singleton_false _ rfl]
        exact hcount1
    | none =>
      rw [hdur] at h
      obtain ⟨ts, hts, h⟩ := exceptBind_ok h
      have := ok_inj h
      subst this
      constructor
      · show alookup st1.functionMap nm = some f
        rw [hfm1]
        exact hf
      · show ((st1.calls ++ [SinkCall.enter loc (convert_time_to_ticks ts) ff []]).filter
            SinkCall.isRegionDef).length = _
        rw [filter_append_singleton_false _ rfl]
        exact hcount1
  · intro e st st' pid tid loc hpid htid hth h
    unfold handle_event at h
    obtain ⟨pid1, hpid1, h⟩ := exceptBind_ok h
    obtain ⟨tid1, htid1, h⟩ := exceptBind_ok h
    obtain rfl : pid = pid1 := by
      have h1 := getKey_eq hpid1
      rw [hpid] at h1
      exact Option.some_inj.mp h1
    obtain rfl : tid = tid1 := by
      have h1 := getKey_eq htid1
      rw [htid] at h1
      exact Option.some_inj.mp h1
    obtain ⟨p, hp, h⟩ := exceptBind_ok h
    have hp' := getKey_eq hp
    have hpt : alookup p.threads tid = some loc := by
      rw [threadHandle_of_lookup tid hp'] at hth
      exact hth
    rw [ensure_thread_of_some hpt] at h
    obtain ⟨st1, hst1, h⟩ := exceptBind_ok h
    obtain rfl : st = st1 := ok_inj hst1
    obtain ⟨name, hname, h⟩ := exceptBind_ok h
    obtain ⟨p2, hp2, h⟩ := exceptBind_ok h
    obtain ⟨loc2, hloc2, h⟩ := exceptBind_ok h
    obtain ⟨ff, hff, h⟩ := exceptBind_ok h
    have hpm2 : (ensure_function name st).processMap = st.processMap :=
      (ensure_function_spec name st).2
    have hth2 : threadHandle (ensure_function name st) pid tid = some loc := by
      rw [threadHandle_congr hpm2]
      exact hth
    have hcount2 : ((ensure_function name st).calls.filter SinkCall.isEventWriter).length
        = (st.calls.filter SinkCall.isEventWriter).length := by
      rcases ensure_function_calls name st with hc | hc
      · rw [hc]
      · rw [hc, filter_append_singleton_false _ rfl]
    cases hdur : e.dur with
    | some d =>
      rw [hdur] at h
      obtain ⟨ts, hts, h⟩ := exceptBind_ok h
      have := ok_inj h
      subst this
      constructor
      · show threadHandle (ensure_function name st) pid tid = some loc
        exact hth2
      · show (((ensure_function name st).calls
            ++ [SinkCall.leave loc2 (convert_time_to_ticks (ts + d)) ff]).filter
            SinkCall.isEventWriter).length = _
        rw [filter_append_singleton_false _ rfl]
        exact hcount2
    | none =>
      rw [hdur] at h
      obtain ⟨ts, hts, h⟩ := exceptBind_ok h
      have := ok_inj h
      subst this
      constructor
      · show threadHandle (ensure_function name st) pid tid = some loc
        exact hth2
      · show (((ensure_function name st).calls
            ++ [SinkCall.enter loc2 (convert_time_to_ticks ts) ff []]).filter
            SinkCall.isEventWriter).length = _
        rw [filter_append_singleton_false _ rfl]
        exact hcount2
  · intro e st st' m hm h
    unfold handle_metric at h
    obtain ⟨mn, hmn, h⟩ := exceptBind_ok h
    obtain ⟨pid, hpid, h⟩ := exceptBind_ok h
    obtain ⟨tid, htid, h⟩ := exceptBind_ok h
    split at h
    · rename_i hmne
      subst hmne
      rw [ensure_metric_of_some hm] at h
      obtain ⟨p, hp, h⟩ := exceptBind_ok h
      obtain ⟨st1, hst1, h⟩ := exceptBind_ok h
      have hmm1 : st1.metricMap = st.metricMap := (ensure_thread_ok hst1).2.2
      have hcount1 : (st1.calls.filter SinkCall.isMetricDef).length
          = (st.calls.filter SinkCall.isMetricDef).length := by
        rcases ensure_thread_calls hst1 with hc | ⟨hdl, w, g, hc⟩
        · rw [hc]
        · rw [hc, filter_append_singleton_false _ rfl]
      obtain ⟨v, hv, h⟩ := exceptBind_ok h
      obtain ⟨p2, hp2, h⟩ := exceptBind_ok h
      obtain ⟨loc, hloc, h⟩ := exceptBind_ok h
      obtain ⟨mm, hmm, h⟩ := exceptBind_ok h
      obtain ⟨ts, hts, h⟩ := exceptBind_ok h
      have := ok_inj h
      subst this
      constructor
      · show alookup st1.metricMap "Allocated Bytes" = some m
        rw [hmm1]
        exact hm
      · show ((st1.calls ++ [SinkCall.metricSample loc (convert_time_to_ticks ts) mm v]).filter
            SinkCall.isMetricDef).length = _
        rw [filter_append_singleton_false _ rfl]
        exact hcount1
    · have := ok_inj h
      subst this
      exact ⟨hm, rfl⟩
  · intro st attrs out key v hdl res hk h
    unfold add_attribute at h
    rw [hk] at h
    have := ok_inj h
    subst this
    exact ⟨rfl, rfl⟩
  · intro pid name st p hp
    constructor
    · rw [otf2_add_process_calls, List.filter_append]
      simp [SinkCall.isLocationGroup]
    · rw [otf2_add_process_processMap_of_some name hp]
      refine ⟨{ p with group := st.nextHandle, name := if name = "" then toString pid else name },
        ?_, rfl⟩
      rw [alookup_cons, if_pos rfl]

theorem C5_witness :
    (alookup ((handle_event evX demoFinal).toOption.getD {}).functionMap "f" = some 4 ∧
      (((handle_event evX demoFinal).toOption.getD {}).calls.filter
          SinkCall.isRegionDef).length
        = (demoFinal.calls.filter SinkCall.isRegionDef).length) ∧
    (threadHandle ((handle_event evX demoFinal).toOption.getD {}) 1 1 = some 3 ∧
      (((handle_event evX demoFinal).toOption.getD {}).calls.filter
          SinkCall.isEventWriter).length
        = (demoFinal.calls.filter SinkCall.isEventWriter).length) ∧
    (alookup ((handle_metric evC (ensure_metric "Allocated Bytes" "Bytes"
          demoFinal)).toOption.getD {}).metricMap "Allocated Bytes" = some 5 ∧
      (((handle_metric evC (ensure_metric "Allocated Bytes" "Bytes"
            demoFinal)).toOption.getD {}).calls.filter SinkCall.isMetricDef).length
        = ((ensure_metric "Allocated Bytes" "Bytes" demoFinal).calls.filter
            SinkCall.isMetricDef).length) ∧
    (((add_attribute (initState, [("address", 9)], [])
          ("address", AttrVal.s "7")).toOption.getD (initState, [], [])).1 = initState ∧
      ((add_attribute (initState, [("address", 9)], [])
          ("address", AttrVal.s "7")).toOption.getD (initState, [], [])).2.1
        = [("address", 9)]) ∧
    (((otf2_add_process 1 "P 1" demoFinal).calls.filter SinkCall.isLocationGroup).length
        = (demoFinal.calls.filter SinkCall.isLocationGroup).length + 1 ∧
      ∃ p', alookup (otf2_add_process 1 "P 1" demoFinal).processMap 1 = some p' ∧
        p'.group = demoFinal.nextHandle) :=
  ⟨C5_amended.1 evX demoFinal ((handle_event evX demoFinal).toOption.getD {}) "f" 4
      rfl (by with_unfolding_all rfl) (by with_unfolding_all rfl),
   C5_amended.2.1 evX demoFinal ((handle_event evX demoFinal).toOption.getD {}) 1 1 3
      rfl rfl (by with_unfolding_all rfl) (by with_unfolding_all rfl),
   C5_amended.2.2.1 evC (ensure_metric "Allocated Bytes" "Bytes" demoFinal)
      ((handle_metric evC (ensure_metric "Allocated Bytes" "Bytes"
        demoFinal)).toOption.getD {}) 5
      (by with_unfolding_all rfl) (by with_unfolding_all rfl),
   C5_amended.2.2.2.1 initState [("address", 9)] [] "address" (AttrVal.s "7") 9
      ((add_attribute (initState, [("address", 9)], [])
        ("address", AttrVal.s "7")).toOption.getD (initState, [], []))
      (by with_unfolding_all rfl) (by with_unfolding_all rfl),
   C5_amended.2.2.2.2 1 "P 1" demoFinal
      { name := "P 1", group := 2, threads := [(1, 3)] } (by with_unfolding_all rfl)⟩

/-- C5 counterexample: two process_name metadata events for the same pid
issue two location-group creation calls to the sink (chrome2otf2.py:286
creates a group before checking the registry), contrary to "exactly one
creation call in total". -/
theorem C5_counterexample :
    (convert_event_trace [evP, evP] initState).toOption.isSome = true ∧
    ((runCalls (convert_event_trace [evP, evP] initState)).filter
        SinkCall.isLocationGroup).length = 2 := by with_unfolding_all decide

/-!
### Claim C2: the coalescing pattern of the Memory-Profile Merger
-/

/-- The (time, region) pairs of the deferred leaves produced by the snapshot
loop, given the incoming deferred region: each snapshot's leave is emitted at
the NEXT snapshot's timestamp with the PREVIOUS deferred region (the final
deferred leave is emitted outside the loop). -/
def memLeaves : Option ℕ → List (ℤ × ℕ) → List (ℤ × ℕ)
  | _, [] => []
  | none, (_, r) :: rest => memLeaves (some r) rest
  | some r0, (t, r) :: rest => (t, r0) :: memLeaves (some r) rest

theorem memLeaves_times (r0 : Option ℕ) (l : List (ℤ × ℕ)) :
    (memLeaves r0 l).map Prod.fst
      = (match r0 with
         | some _ => l.map Prod.fst
         | none => (l.map Prod.fst).drop 1) := by
  induction l generalizing r0 with
  | nil => cases r0 <;> rfl
  | cons p rest ih =>
    obtain ⟨t, r⟩ := p
    cases r0 with
    | none =>
      show (memLeaves (some r) rest).map Prod.fst = _
      rw [ih (some r)]
      rfl
    | some rr =>
      show t :: (memLeaves (some r) rest).map Prod.fst = _
      rw [ih (some r)]
      rfl

theorem entersOn_append (loc : ℕ) (l1 l2 : List SinkCall) :
    entersOn loc (l1 ++ l2) = entersOn loc l1 ++ entersOn loc l2 :=
  List.filterMap_append ..

theorem leavesOn_append (loc : ℕ) (l1 l2 : List SinkCall) :
    leavesOn loc (l1 ++ l2) = leavesOn loc l1 ++ leavesOn loc l2 :=
  List.filterMap_append ..

theorem entersOn_nonEL {loc : ℕ} {l : List SinkCall}
    (h : ∀ c ∈ l, c.isEL = false) : entersOn loc l = [] := by
  induction l with
  | nil => rfl
  | cons c rest ih =>
    have hc := h c (List.mem_cons_self c rest)
    have hrest := ih fun c' hc' => h c' (List.mem_cons_of_mem _ hc')
    cases c <;> simp [entersOn, List.filterMap] at hc hrest ⊢ <;>
      first
        | exact hrest
        | cases hc

theorem leavesOn_nonEL {loc : ℕ} {l : List SinkCall}
    (h : ∀ c ∈ l, c.isEL = false) : leavesOn loc l = [] := by
  induction l with
  | nil => rfl
  | cons c rest ih =>
    have hc := h c (List.mem_cons_self c rest)
    have hrest := ih fun c' hc' => h c' (List.mem_cons_of_mem _ hc')
    cases c <;> simp [leavesOn, List.filterMap] at hc hrest ⊢ <;>
      first
        | exact hrest
        | cases hc

theorem foldl_some_last {β : Type} (f : ℤ × ℕ → β) :
    ∀ (l : List (ℤ × ℕ)) (init : Option β) (d : ℤ × ℕ), l ≠ [] →
      l.foldl (fun _ p => some (f p)) init = some (f (l.getLastD d))
  | [], _, _, h => absurd rfl h
  | [p], init, d, _ => rfl
  | p :: q :: rest, init, d, _ => by
    show (q :: rest).foldl (fun _ p => some (f p)) (some (f p)) = _
    rw [foldl_some_last f (q :: rest) (some (f p)) d (by simp)]
    rfl

/-- What the whole attribute loop appends: definition calls only. -/
theorem add_attribute_fold_calls {l : List (String × AttrVal)}
    {acc res : ConvState × List (String × ℕ) × List (ℕ × AttrVal)}
    (h : l.foldlM add_attribute acc = .ok res) :
    ∃ defs, (∀ c ∈ defs, c.isEL = false) ∧ res.1.calls = acc.1.calls ++ defs := by
  induction l generalizing acc with
  | nil =>
    rw [List.foldlM_nil] at h
    have := ok_inj h
    subst this
    exact ⟨[], by simp, by simp⟩
  | cons kv rest ih =>
    rw [List.foldlM_cons] at h
    obtain ⟨acc1, h1, h2⟩ := exceptBind_ok h
    obtain ⟨defs, hdefs, hcalls⟩ := ih h2
    have hstep : ∃ d1, (∀ c ∈ d1, SinkCall.isEL c = false) ∧
        acc1.1.calls = acc.1.calls ++ d1 := by
      unfold add_attribute at h1
      cases halo : alookup acc.2.1 kv.1 with
      | some hdl =>
        rw [halo] at h1
        have := ok_inj h1
        subst this
        exact ⟨[], by simp, by simp⟩
      | none =>
        rw [halo] at h1
        dsimp only at h1
        split at h1
        · obtain ⟨v, hv, h1⟩ := exceptBind_ok h1
          have := ok_inj h1
          subst this
          exact ⟨[SinkCall.attributeDef acc.1.nextHandle kv.1 .uint64], by simp [SinkCall.isEL],
            by simp [emit, fresh]⟩
        · have := ok_inj h1
          subst this
          exact ⟨[SinkCall.attributeDef acc.1.nextHandle kv.1 .string], by simp [SinkCall.isEL],
            by simp [emit, fresh]⟩
    obtain ⟨d1, hd1, hc1⟩ := hstep
    refine ⟨d1 ++ defs, ?_, ?_⟩
    · intro c hc
      rcases List.mem_append.mp hc with h' | h'
      · exact hd1 c h'
      · exact hdefs c h'
    · rw [hcalls, hc1, List.append_assoc]

/-- What one snapshot does on its allocator location: some definition calls,
then the deferred leave (when one is pending) and the enter, both at this
snapshot's timestamp; the snapshot's region becomes the new deferred
leave. -/
theorem ensure_memory_activity_spec (activity : String) (ms : MemLoopState) :
    (ensure_memory_activity activity ms).lastLeave = ms.lastLeave ∧
    (ensure_memory_activity activity ms).curLocation = ms.curLocation ∧
    (ensure_memory_activity activity ms).curTimestamp = ms.curTimestamp ∧
    ∃ defs, (∀ c ∈ defs, SinkCall.isEL c = false) ∧
      (ensure_memory_activity activity ms).st.calls = ms.st.calls ++ defs := by
  unfold ensure_memory_activity
  cases alookup ms.memoryActivities activity with
  | some r => exact ⟨rfl, rfl, rfl, [], by simp, by simp⟩
  | none =>
    refine ⟨rfl, rfl, rfl, [SinkCall.regionDef ms.st.nextHandle activity], ?_, ?_⟩
    · intro c hc
      rcases List.mem_cons.mp hc with heq | hmem
      · subst heq; rfl
      · cases hmem
    · rfl

theorem process_snapshot_spec {loc : ℕ} {ms ms' : MemLoopState} {s : MemorySnapshot}
    (h : process_snapshot loc ms s = .ok ms') :
    ∃ r attrs defs,
      (∀ c ∈ defs, SinkCall.isEL c = false) ∧
      ms'.st.calls = ms.st.calls ++ defs
          ++ (match ms.lastLeave with
              | some r0 => [SinkCall.leave loc (memory_timestamp s.timeOffsetPs) r0]
              | none => [])
          ++ [SinkCall.enter loc (memory_timestamp s.timeOffsetPs) r attrs] ∧
      ms'.lastLeave = some r ∧
      ms'.curTimestamp = some (memory_timestamp s.timeOffsetPs) ∧
      ms'.curLocation = ms.curLocation := by
  unfold process_snapshot at h
  obtain ⟨av, hav, h⟩ := exceptBind_ok h
  obtain ⟨activity, hact, h⟩ := exceptBind_ok h
  obtain ⟨hll0, hcl0, hct0, defs0, hdefs0, hcalls0⟩ :=
    ensure_memory_activity_spec activity ms
  obtain ⟨res, hres, h⟩ := exceptBind_ok h
  obtain ⟨defs1, hdefs1, hcalls1⟩ := add_attribute_fold_calls hres
  obtain ⟨rh, hrh, h⟩ := exceptBind_ok h
  dsimp only at h
  rw [hll0] at h
  cases hll : ms.lastLeave with
  | some reg =>
    rw [hll] at h
    have := ok_inj h
    subst this
    refine ⟨rh, res.2.2, defs0 ++ defs1, ?_, ?_, rfl, rfl, hcl0⟩
    · intro c hc
      rcases List.mem_append.mp hc with h' | h'
      · exact hdefs0 c h'
      · exact hdefs1 c h'
    · show (emit (emit res.1 (SinkCall.leave loc (memory_timestamp s.timeOffsetPs) reg))
          (SinkCall.enter loc (memory_timestamp s.timeOffsetPs) rh res.2.2)).calls = _
      have hc1 : res.1.calls
          = (ms.st.calls ++ defs0) ++ defs1 := by rw [← hcalls0]; exact hcalls1
      simp [emit, hc1, List.append_assoc]
  | none =>
    rw [hll] at h
    have := ok_inj h
    subst this
    refine ⟨rh, res.2.2, defs0 ++ defs1, ?_, ?_, rfl, rfl, hcl0⟩
    · intro c hc
      rcases List.mem_append.mp hc with h' | h'
      · exact hdefs0 c h'
      · exact hdefs1 c h'
    · show (emit res.1
          (SinkCall.enter loc (memory_timestamp s.timeOffsetPs) rh res.2.2)).calls = _
      have hc1 : res.1.calls
          = (ms.st.calls ++ defs0) ++ defs1 := by rw [← hcalls0]; exact hcalls1
      simp [emit, hc1, List.append_assoc]

/-- What the whole snapshot loop of one allocator does on its location:
it emits the enter pairs of the snapshots in order, and the coalesced
leave pairs of `memLeaves`; the last snapshot's region stays deferred and
the loop variables hold the last snapshot's data. -/
theorem mem_snap_fold_spec {snaps : List MemorySnapshot} {loc : ℕ} {ms ms' : MemLoopState}
    (h : snaps.foldlM (fun ms s => process_snapshot loc ms s) ms = .ok ms') :
    ∃ pairs : List (ℤ × ℕ),
      pairs.map Prod.fst = snaps.map (fun s => memory_timestamp s.timeOffsetPs) ∧
      (∃ rest, ms'.st.calls = ms.st.calls ++ rest ∧
        entersOn loc rest = pairs ∧
        leavesOn loc rest = memLeaves ms.lastLeave pairs) ∧
      ms'.curLocation = ms.curLocation ∧
      ms'.lastLeave = pairs.foldl (fun _ p => some p.2) ms.lastLeave ∧
      ms'.curTimestamp = pairs.foldl (fun _ p => some p.1) ms.curTimestamp := by
  induction snaps generalizing ms with
  | nil =>
    rw [List.foldlM_nil] at h
    have := ok_inj h
    subst this
    exact ⟨[], rfl, ⟨[], by simp, rfl, by cases ms.lastLeave <;> rfl⟩, rfl, rfl, rfl⟩
  | cons s rest ih =>
    rw [List.foldlM_cons] at h
    obtain ⟨ms1, h1, h2⟩ := exceptBind_ok h
    obtain ⟨r, attrs, defs, hdefs, hcalls1, hll1, hts1, hloc1⟩ := process_snapshot_spec h1
    obtain ⟨pairs, hmap, ⟨rest2, hcalls2, hent2, hlv2⟩, hloc2, hll2, hts2⟩ := ih h2
    refine ⟨(memory_timestamp s.timeOffsetPs, r) :: pairs, ?_, ?_, ?_, ?_, ?_⟩
    · simp [hmap]
    · refine ⟨(defs
          ++ (match ms.lastLeave with
              | some r0 => [SinkCall.leave loc (memory_timestamp s.timeOffsetPs) r0]
              | none => [])
          ++ [SinkCall.enter loc (memory_timestamp s.timeOffsetPs) r attrs]) ++ rest2,
        ?_, ?_, ?_⟩
      · rw [hcalls2, hcalls1]
        simp [List.append_assoc]
      · rw [entersOn_append, entersOn_append, entersOn_append]
        rw [entersOn_nonEL hdefs, hent2]
        have hlv : entersOn loc (match ms.lastLeave with
            | some r0 => [SinkCall.leave loc (memory_timestamp s.timeOffsetPs) r0]
            | none => []) = [] := by
          cases ms.lastLeave <;> simp [entersOn, List.filterMap]
        rw [hlv]
        simp [entersOn, List.filterMap]
      · rw [leavesOn_append, leavesOn_append, leavesOn_append]
        rw [leavesOn_nonEL hdefs, hlv2, hll1]
        cases hll : ms.lastLeave with
        | some r0 =>
          show [] ++ (leavesOn loc [SinkCall.leave loc (memory_timestamp s.timeOffsetPs) r0]
              ++ leavesOn loc [SinkCall.enter loc (memory_timestamp s.timeOffsetPs) r attrs])
              ++ memLeaves (some r) pairs = _
          simp [leavesOn, List.filterMap, memLeaves]
        | none =>
          show [] ++ (leavesOn loc []
              ++ leavesOn loc [SinkCall.enter loc (memory_timestamp s.timeOffsetPs) r attrs])
              ++ memLeaves (some r) pairs = _
          simp [leavesOn, List.filterMap, memLeaves]
    · rw [hloc2, hloc1]
    · rw [hll2, hll1]
      rfl
    · rw [hts2, hts1]
      rfl

theorem getLastD_append_singleton {α : Type} :
    ∀ (l : List α) (a d : α), (l ++ [a]).getLastD d = a
  | [], _, _ => rfl
  | b :: l, a, d => by
    show ((b :: l) ++ [a]).getLastD d = a
    rw [List.cons_append, List.getLastD_cons]
    exact getLastD_append_singleton l a b

theorem getLastD_fst :
    ∀ (l : List (ℤ × ℕ)) (d : ℤ × ℕ), (l.getLastD d).1 = (l.map Prod.fst).getLastD d.1
  | [], _ => rfl
  | p :: l, d => by
    rw [List.getLastD_cons, List.map_cons, List.getLastD_cons]
    exact getLastD_fst l p

/-- C2 (amended): for a memory-profile document with a single allocator
holding N ≥ 1 snapshots, the merger emits exactly N enters and N leaves on
that allocator's location; the enter timestamps are the snapshot timestamps
in order, the leave timestamps are the enter timestamps shifted by one with
the last enter timestamp repeated (so leave i coincides with enter i+1, and
the final leave is at the last snapshot's own timestamp), and the final
leave carries the last snapshot's region.  (With two or more allocators
this fails: the deferred leave escapes to the next allocator's location,
see the counterexample.) -/
theorem C2_amended (st0 : ConvState) (name : String) (snaps : List MemorySnapshot)
    (st' : ConvState) (hne : snaps ≠ [])
    (h : convert_memory_profile [(name, snaps)] st0 = .ok st') :
    ∃ loc newCalls,
      st'.calls = st0.calls ++ newCalls ∧
      (entersOn loc newCalls).length = snaps.length ∧
      (leavesOn loc newCalls).length = snaps.length ∧
      (entersOn loc newCalls).map Prod.fst
        = snaps.map (fun s => memory_timestamp s.timeOffsetPs) ∧
      (leavesOn loc newCalls).map Prod.fst
        = ((entersOn loc newCalls).map Prod.fst).drop 1
          ++ [((entersOn loc newCalls).map Prod.fst).getLastD 0] ∧
      (leavesOn loc newCalls).getLastD (0, 0) = (entersOn loc newCalls).getLastD (0, 0) := by
  simp only [convert_memory_profile, fresh, emit, List.foldlM_cons, List.foldlM_nil,
    bind_pure] at h
  obtain ⟨ms1, hms1, h⟩ := exceptBind_ok h
  obtain ⟨pairs, hmap, ⟨rest, hcallsF, hent, hlv⟩, hlocF, hllF, htsF⟩ :=
    mem_snap_fold_spec hms1
  dsimp only at hcallsF hent hlv hlocF hllF htsF h
  have hpairs_ne : pairs ≠ [] := by
    intro hp
    rw [hp] at hmap
    cases snaps with
    | nil => exact hne rfl
    | cons a l => simp at hmap
  have hlen_pairs : pairs.length = snaps.length := by
    have := congrArg List.length hmap
    simpa using this
  have hpos : 0 < pairs.length := List.length_pos.mpr hpairs_ne
  have hll1 : ms1.lastLeave = some (pairs.getLastD (0, 0)).2 := by
    rw [hllF]
    exact foldl_some_last Prod.snd pairs none (0, 0) hpairs_ne
  have hts1 : ms1.curTimestamp = some (pairs.getLastD (0, 0)).1 := by
    rw [htsF]
    exact foldl_some_last Prod.fst pairs none (0, 0) hpairs_ne
  rw [hll1, hlocF, hts1] at h
  dsimp only at h
  have hst' := ok_inj h
  subst hst'
  have hE : entersOn (st0.nextHandle + 1)
      ([SinkCall.locationGroup st0.nextHandle "TF Memory Allocators" st0.systemTreeHost,
        SinkCall.eventWriter (st0.nextHandle + 1) name st0.nextHandle]
        ++ (rest ++ [SinkCall.leave (st0.nextHandle + 1) (pairs.getLastD (0, 0)).1
              (pairs.getLastD (0, 0)).2])) = pairs := by
    rw [entersOn_append, entersOn_append, hent]
    simp [entersOn, List.filterMap]
  have hL : leavesOn (st0.nextHandle + 1)
      ([SinkCall.locationGroup st0.nextHandle "TF Memory Allocators" st0.systemTreeHost,
        SinkCall.eventWriter (st0.nextHandle + 1) name st0.nextHandle]
        ++ (rest ++ [SinkCall.leave (st0.nextHandle + 1) (pairs.getLastD (0, 0)).1
              (pairs.getLastD (0, 0)).2]))
      = memLeaves none pairs ++ [pairs.getLastD (0, 0)] := by
    rw [leavesOn_append, leavesOn_append, hlv]
    simp [leavesOn, List.filterMap]
  have hml : (memLeaves none pairs).length = pairs.length - 1 := by
    have := congrArg List.length (memLeaves_times none pairs)
    simpa using this
  refine ⟨st0.nextHandle + 1,
    [SinkCall.locationGroup st0.nextHandle "TF Memory Allocators" st0.systemTreeHost,
     SinkCall.eventWriter (st0.nextHandle + 1) name st0.nextHandle]
      ++ (rest ++ [SinkCall.leave (st0.nextHandle + 1) (pairs.getLastD (0, 0)).1
            (pairs.getLastD (0, 0)).2]),
    ?_, ?_, ?_, ?_, ?_, ?_⟩
  · simp [hcallsF, List.append_assoc]
  · rw [hE, hlen_pairs]
  · rw [hL, List.length_append, hml]
    simp only [List.length_singleton]
    omega
  · rw [hE]
    exact hmap
  · rw [hL, hE, List.map_append, memLeaves_times]
    simp [getLastD_fst]
    cases pairs.getLast? <;> rfl
  · rw [hL, hE, getLastD_append_singleton]

theorem C2_witness :
    ([snapA, snapB] : List MemorySnapshot) ≠ [] ∧
    ∃ loc newCalls,
      memFinal.calls = initState.calls ++ newCalls ∧
      (entersOn loc newCalls).length = ([snapA, snapB] : List MemorySnapshot).length ∧
      (leavesOn loc newCalls).length = ([snapA, snapB] : List MemorySnapshot).length ∧
      (entersOn loc newCalls).map Prod.fst
        = ([snapA, snapB] : List MemorySnapshot).map
            (fun s => memory_timestamp s.timeOffsetPs) ∧
      (leavesOn loc newCalls).map Prod.fst
        = ((entersOn loc newCalls).map Prod.fst).drop 1
          ++ [((entersOn loc newCalls).map Prod.fst).getLastD 0] ∧
      (leavesOn loc newCalls).getLastD (0, 0) = (entersOn loc newCalls).getLastD (0, 0) :=
  ⟨by with_unfolding_all decide,
   C2_amended initState "gpu_0" [snapA, snapB] memFinal (by with_unfolding_all decide)
     (by with_unfolding_all rfl)⟩

/-- C2 counterexample: in a document with two allocators of one snapshot
each, allocator "A" (location 3) receives one enter and zero leaves — not
N = 1 enters and N = 1 leaves as claimed — because the deferred leave is
emitted on the next allocator's location. -/
theorem C2_counterexample :
    (convert_memory_profile memDoc2 initState).toOption.isSome = true ∧
    SinkCall.eventWriter 3 "A" 2 ∈ runCalls (convert_memory_profile memDoc2 initState) ∧
    (entersOn 3 (runCalls (convert_memory_profile memDoc2 initState))).length = 1 ∧
    (leavesOn 3 (runCalls (convert_memory_profile memDoc2 initState))).length = 0 := by
  with_unfolding_all decide

/-- C3 (code bug, evaluated at the failing input): with two allocators "A"
(location 3) and "B" (location 8), region 4 ("alloc") comes from A's only
snapshot, yet the sink receives `leave` on B's location with region 4: the
deferred-leave state crosses allocators, and A's location gets no leave at
all. -/
theorem C3_cross_allocator_leak :
    (convert_memory_profile memDoc2 initState).toOption.isSome = true ∧
    SinkCall.eventWriter 3 "A" 2 ∈ runCalls (convert_memory_profile memDoc2 initState) ∧
    SinkCall.eventWriter 8 "B" 2 ∈ runCalls (convert_memory_profile memDoc2 initState) ∧
    SinkCall.regionDef 4 "alloc" ∈ runCalls (convert_memory_profile memDoc2 initState) ∧
    SinkCall.leave 8 2 4 ∈ runCalls (convert_memory_profile memDoc2 initState) ∧
    (leavesOn 3 (runCalls (convert_memory_profile memDoc2 initState))).length = 0 := by
  with_unfolding_all decide

end Chrome2OTF2
